import Mathlib

/-
  Shallow embedding of the minesweeper board engine (src/ctext/minesweeper.c).

  The C program stores the board in fixed arrays of MAX_BOARD_AREA = 26 * 26
  entries; a board of side `size` only ever touches the first `size * size`
  entries through its public operations.  We model the two arrays as Lean
  lists read through `List.getD`, with the defaults matching the
  memset-initialised memory of the C program (cells default 0, overlay
  default Hidden).  Machine integers stay well inside their ranges for
  in-range coordinates (size <= 26, area <= 676), so plain Nat is faithful.
-/

namespace Minesweeper

def MAX_BOARD_SIZE : Nat := 26

def MAX_BOARD_AREA : Nat := MAX_BOARD_SIZE * MAX_BOARD_SIZE

/-- Sentinel cell value for a mine (`CELL_MINE` = (uint8_t)255). -/
def CELL_MINE : Nat := 255

/-- Cell value of a cell with zero neighboring mines (`CELL_EMPTY` = 0). -/
def CELL_EMPTY : Nat := 0

/-- The `enum OverlayCell` of the C source. -/
inductive OverlayCell where
  | Hidden
  | Visible
  | Marked
deriving DecidableEq, Repr

/-- The `enum GameState` of the C source. -/
inductive GameState where
  | Unfinished
  | Won
  | Lost
deriving DecidableEq, Repr

/-- `struct Board`: side length, flattened row-major cell values
    (index = y * size + x), and the parallel visibility overlay. -/
structure Board where
  size : Nat
  cells : List Nat
  overlay : List OverlayCell
deriving DecidableEq, Repr

/-- The index range `[max (c-1) 0, min size (c+2))` used by both the
    neighbor-counting loops of `board_init` and the flood-fill loops of
    `board_reveal` (one axis of the clipped 3x3 block centered at `c`). -/
def blockRange (size c : Nat) : List Nat :=
  List.range' (c - 1) (min size (c + 2) - (c - 1))

/-- Row-major product of two index lists: `prodPairs js is` enumerates
    `(i, j)` with `j` running over `js` in the outer loop and `i` over
    `is` in the inner loop, exactly like the C double loops. -/
def prodPairs : List Nat → List Nat → List (Nat × Nat)
  | [], _ => []
  | j :: js, is => (is.map fun i => (i, j)) ++ prodPairs js is

/-- The `(i, j)` pairs visited by the two nested neighbor loops around
    `(x, y)` (center included; the C loops include it too and rely on the
    visibility guard to make it a no-op in `board_reveal`). -/
def neighborList (size x y : Nat) : List (Nat × Nat) :=
  prodPairs (blockRange size y) (blockRange size x)

/-- The inner counting loops of `board_init`: count the mine-bearing cells
    in the clipped 3x3 block centered at `(x, y)`, skipping the center. -/
def countNeighborMines (cells : List Nat) (size x y : Nat) : Nat :=
  (blockRange size y).foldl
    (fun cnt j =>
      (blockRange size x).foldl
        (fun cnt2 i =>
          if i = x ∧ j = y then cnt2
          else if cells.getD (j * size + i) 0 = CELL_MINE then cnt2 + 1
          else cnt2)
        cnt)
    0

/-- The numbering pass of `board_init`: for every `n = y * size + x` in row
    major order, if the cell is not a mine, overwrite it in place with its
    neighbor-mine count (the C code mutates `board->cells` while scanning). -/
def computeNumbers (size : Nat) (cells : List Nat) : List Nat :=
  (List.range size).foldl
    (fun cs y =>
      (List.range size).foldl
        (fun cs2 x =>
          let n := y * size + x
          if cs2.getD n 0 ≠ CELL_MINE then
            cs2.set n (countNeighborMines cs2 size x y)
          else cs2)
        cs)
    cells

/-- The inside-out Fisher-Yates loop of `board_init`, with `rand i` the
    value drawn by `rand()` at iteration `i`.  The working array is the
    zero-initialised `uint16_t shuffled_indices[MAX_BOARD_AREA]`. -/
def shuffledIndices (rand : Nat → Nat) (area : Nat) : List Nat :=
  (List.range (min area MAX_BOARD_AREA)).foldl
    (fun s i =>
      let j := rand i % (i + 1)
      let s1 := if j ≠ i then s.set i (s.getD j 0) else s
      s1.set j i)
    (List.replicate MAX_BOARD_AREA 0)

/-- The mine-placement loop of `board_init`: mark the cells at the first
    `num_mines` shuffled indices as mines. -/
def placeMines (cells shuffled : List Nat) (num_mines : Nat) : List Nat :=
  (List.range num_mines).foldl
    (fun c i => c.set (shuffled.getD i 0) CELL_MINE)
    cells

/-- `board_init(board, size, num_mines)`: zeroed cells and Hidden overlay of
    MAX_BOARD_AREA entries, mines at the first `num_mines` shuffled indices,
    then the in-place neighbor-count pass. -/
def board_init (rand : Nat → Nat) (size num_mines : Nat) : Board :=
  let area := size * size
  let shuffled := shuffledIndices rand area
  let cells1 := placeMines (List.replicate MAX_BOARD_AREA 0) shuffled num_mines
  { size := size
    cells := computeNumbers size cells1
    overlay := List.replicate MAX_BOARD_AREA OverlayCell.Hidden }

/-- `board_reveal`, made total with a fuel parameter: the C function
    recurses on the up-to-3x3 neighbor block after setting an empty cell
    Visible.  `board_reveal` below instantiates the fuel with a value
    large enough that the result is the C function's result (each level of
    nested recursion first turns a Hidden cell Visible, so the nesting
    depth is bounded by the number of Hidden cells). -/
def revealFuel : Nat → Board → Nat → Nat → Board
  | 0, b, _, _ => b
  | fuel + 1, b, x, y =>
    let n := y * b.size + x
    if b.overlay.getD n OverlayCell.Hidden ≠ OverlayCell.Hidden then b
    else
      let b1 : Board := { b with overlay := b.overlay.set n OverlayCell.Visible }
      if b.cells.getD n 0 = CELL_EMPTY then
        (neighborList b.size x y).foldl (fun acc p => revealFuel fuel acc p.1 p.2) b1
      else b1

/-- The sequence of recursive `board_reveal` calls issued by the two nested
    flood-fill loops, at one fuel level. -/
def revealAll (fuel : Nat) (b : Board) (l : List (Nat × Nat)) : Board :=
  l.foldl (fun acc p => revealFuel fuel acc p.1 p.2) b

/-- Number of Hidden entries of an overlay. -/
def hiddenCount (l : List OverlayCell) : Nat :=
  l.countP (fun c => c == OverlayCell.Hidden)

/-- `board_reveal(board, x, y)`; the fuel `hiddenCount + 1` is always
    sufficient (proved below), so this is the C recursion's result. -/
def board_reveal (b : Board) (x y : Nat) : Board :=
  revealFuel (hiddenCount b.overlay + 1) b x y

/-- `board_mark(board, x, y)`: toggle Hidden <-> Marked, no-op on Visible;
    the switched-on index is `n = y * size + x`. -/
def board_mark (b : Board) (x y : Nat) : Board :=
  match b.overlay.getD (y * b.size + x) OverlayCell.Hidden with
  | OverlayCell.Hidden =>
    { b with overlay := b.overlay.set (y * b.size + x) OverlayCell.Marked }
  | OverlayCell.Marked =>
    { b with overlay := b.overlay.set (y * b.size + x) OverlayCell.Hidden }
  | OverlayCell.Visible => b

/-- Cell predicate of the first scan of `board_check_game_state`:
    a Visible mine. -/
def cellIsVisibleMine (b : Board) (n : Nat) : Bool :=
  b.overlay.getD n OverlayCell.Hidden == OverlayCell.Visible
    && b.cells.getD n 0 == CELL_MINE

/-- Cell predicate of the second scan of `board_check_game_state`:
    a Hidden non-mine cell. -/
def cellIsHiddenSafe (b : Board) (n : Nat) : Bool :=
  b.overlay.getD n OverlayCell.Hidden == OverlayCell.Hidden
    && b.cells.getD n 0 != CELL_MINE

/-- One double scan loop of `board_check_game_state` (y outer, x inner). -/
def scanAny (b : Board) (p : Board → Nat → Bool) : Bool :=
  (List.range b.size).any fun y =>
    (List.range b.size).any fun x => p b (y * b.size + x)

/-- `board_check_game_state`: Lost on a Visible mine, else Unfinished on a
    Hidden non-mine cell, else Won. -/
def board_check_game_state (b : Board) : GameState :=
  if scanAny b cellIsVisibleMine then GameState.Lost
  else if scanAny b cellIsHiddenSafe then GameState.Unfinished
  else GameState.Won

/-! Basic list and index lemmas. -/

variable {α : Type _}

theorem getD_of_lt (l : List α) (n : Nat) (d : α) (h : n < l.length) :
    l.getD n d = l[n] := by
  rw [List.getD_eq_getElem?_getD, List.getElem?_eq_getElem h]
  rfl

theorem getElem?_of_getD (l : List α) (n : Nat) (d : α) (h : n < l.length) :
    l[n]? = some (l.getD n d) := by
  rw [List.getElem?_eq_getElem h, getD_of_lt l n d h]

theorem getD_set_self (l : List α) (n : Nat) (v d : α) (h : n < l.length) :
    (l.set n v).getD n d = v := by
  rw [List.getD_eq_getElem?_getD, List.getElem?_set_self h]
  rfl

theorem getD_set_ne (l : List α) (m n : Nat) (v d : α) (h : m ≠ n) :
    (l.set m v).getD n d = l.getD n d := by
  rw [List.getD_eq_getElem?_getD, List.getElem?_set_ne h, ← List.getD_eq_getElem?_getD]

theorem set_getD_self (l : List α) (n : Nat) (v d : α) (h : l.getD n d = v)
    (hn : n < l.length) : l.set n v = l := by
  apply List.ext_getElem?
  intro k
  by_cases hk : n = k
  · subst hk
    rw [List.getElem?_set_self hn, getElem?_of_getD l n d hn, h]
  · rw [List.getElem?_set_ne hk]

theorem mem_blockRange {s c i : Nat} :
    i ∈ blockRange s c ↔ c - 1 ≤ i ∧ i < min s (c + 2) := by
  unfold blockRange
  rw [List.mem_range'_1]
  omega

theorem blockRange_lt {s c i : Nat} (h : i ∈ blockRange s c) : i < s := by
  rw [mem_blockRange] at h
  omega

theorem self_mem_blockRange {s c : Nat} (h : c < s) : c ∈ blockRange s c := by
  rw [mem_blockRange]
  omega

theorem length_blockRange_le (s c : Nat) : (blockRange s c).length ≤ 3 := by
  unfold blockRange
  rw [List.length_range']
  omega

theorem mem_prodPairs {js is : List Nat} {p : Nat × Nat} :
    p ∈ prodPairs js is ↔ p.2 ∈ js ∧ p.1 ∈ is := by
  induction js with
  | nil => simp [prodPairs]
  | cons j js ih =>
    obtain ⟨a, c⟩ := p
    simp only [prodPairs, List.mem_append, List.mem_map, List.mem_cons, ih]
    constructor
    · rintro (⟨i, hi, he⟩ | ⟨h1, h2⟩)
      · obtain ⟨rfl, rfl⟩ := Prod.mk.injEq .. ▸ he
        exact ⟨Or.inl rfl, hi⟩
      · exact ⟨Or.inr h1, h2⟩
    · rintro ⟨h1 | h1, h2⟩
      · exact Or.inl ⟨a, h2, by rw [h1]⟩
      · exact Or.inr ⟨h1, h2⟩

theorem prodPairs_append (js1 js2 is : List Nat) :
    prodPairs (js1 ++ js2) is = prodPairs js1 is ++ prodPairs js2 is := by
  induction js1 with
  | nil => rfl
  | cons j js ih => simp [prodPairs, ih]

theorem foldl_prodPairs {β : Type _} (g : β → Nat → Nat → β) :
    ∀ (js is : List Nat) (a : β),
      (prodPairs js is).foldl (fun c p => g c p.1 p.2) a
        = js.foldl (fun c j => is.foldl (fun c2 i => g c2 i j) c) a
  | [], _, a => rfl
  | j :: js, is, a => by
    rw [prodPairs, List.foldl_append, List.foldl_map]
    exact foldl_prodPairs g js is _

theorem idx_lt {s x y : Nat} (hx : x < s) (hy : y < s) : y * s + x < s * s := by
  calc y * s + x < (y + 1) * s := by nlinarith [Nat.zero_le x]
    _ ≤ s * s := Nat.mul_le_mul_right s hy

theorem idx_inj {s x1 y1 x2 y2 : Nat} (h1 : x1 < s) (h2 : x2 < s)
    (h : y1 * s + x1 = y2 * s + x2) : x1 = x2 ∧ y1 = y2 := by
  have hs : 0 < s := Nat.lt_of_le_of_lt (Nat.zero_le x1) h1
  have e1 : (y1 * s + x1) % s = x1 := by
    rw [Nat.mul_comm y1 s, Nat.mul_add_mod, Nat.mod_eq_of_lt h1]
  have e2 : (y2 * s + x2) % s = x2 := by
    rw [Nat.mul_comm y2 s, Nat.mul_add_mod, Nat.mod_eq_of_lt h2]
  have ex : x1 = x2 := by rw [← e1, ← e2, h]
  refine ⟨ex, ?_⟩
  have hy : y1 * s = y2 * s := by omega
  exact Nat.eq_of_mul_eq_mul_right hs hy

theorem idx_decomp {s n : Nat} (h : n < s * s) :
    (n / s) * s + n % s = n ∧ n % s < s ∧ n / s < s := by
  have hs : 0 < s := by
    rcases Nat.eq_zero_or_pos s with h0 | h0
    · subst h0; omega
    · exact h0
  refine ⟨?_, Nat.mod_lt n hs, ?_⟩
  · rw [Nat.mul_comm]
    exact Nat.div_add_mod n s
  · rw [Nat.div_lt_iff_lt_mul hs]
    exact h

theorem scanAny_iff {b : Board} {p : Board → Nat → Bool} :
    scanAny b p = true ↔ ∃ n, n < b.size * b.size ∧ p b n = true := by
  unfold scanAny
  rw [List.any_eq_true]
  constructor
  · rintro ⟨y, hy, hx⟩
    rw [List.mem_range] at hy
    rw [List.any_eq_true] at hx
    obtain ⟨x, hx1, hp⟩ := hx
    rw [List.mem_range] at hx1
    exact ⟨y * b.size + x, idx_lt hx1 hy, hp⟩
  · rintro ⟨n, hn, hp⟩
    obtain ⟨he, hm, hd⟩ := idx_decomp hn
    refine ⟨n / b.size, ?_, ?_⟩
    · rw [List.mem_range]; exact hd
    · rw [List.any_eq_true]
      refine ⟨n % b.size, ?_, ?_⟩
      · rw [List.mem_range]; exact hm
      · rw [he]; exact hp

/-! Unfolding lemmas for the flood fill. -/

theorem revealFuel_zero (b : Board) (x y : Nat) : revealFuel 0 b x y = b := rfl

theorem revealFuel_succ (f : Nat) (b : Board) (x y : Nat) :
    revealFuel (f + 1) b x y =
      if b.overlay.getD (y * b.size + x) OverlayCell.Hidden ≠ OverlayCell.Hidden then b
      else if b.cells.getD (y * b.size + x) 0 = CELL_EMPTY then
        revealAll f { b with overlay := b.overlay.set (y * b.size + x) OverlayCell.Visible }
          (neighborList b.size x y)
      else { b with overlay := b.overlay.set (y * b.size + x) OverlayCell.Visible } := rfl

theorem revealAll_nil (f : Nat) (b : Board) : revealAll f b [] = b := rfl

theorem revealAll_cons (f : Nat) (b : Board) (p : Nat × Nat) (l : List (Nat × Nat)) :
    revealAll f b (p :: l) = revealAll f (revealFuel f b p.1 p.2) l := rfl

theorem mem_neighborList {s x y i j : Nat} :
    (i, j) ∈ neighborList s x y ↔ i ∈ blockRange s x ∧ j ∈ blockRange s y := by
  unfold neighborList
  rw [mem_prodPairs]
  exact and_comm

/-! Frame: the flood fill never changes `size` or `cells`, and preserves the
    overlay length. -/

theorem revealAll_frame_of (f : Nat)
    (hf : ∀ (b : Board) (x y : Nat),
      (revealFuel f b x y).size = b.size ∧ (revealFuel f b x y).cells = b.cells ∧
        (revealFuel f b x y).overlay.length = b.overlay.length) :
    ∀ (l : List (Nat × Nat)) (b : Board),
      (revealAll f b l).size = b.size ∧ (revealAll f b l).cells = b.cells ∧
        (revealAll f b l).overlay.length = b.overlay.length
  | [], _ => ⟨rfl, rfl, rfl⟩
  | p :: l, b => by
    have h1 := hf b p.1 p.2
    have h2 := revealAll_frame_of f hf l (revealFuel f b p.1 p.2)
    rw [revealAll_cons]
    exact ⟨h2.1.trans h1.1, h2.2.1.trans h1.2.1, h2.2.2.trans h1.2.2⟩

theorem revealFuel_frame : ∀ (f : Nat) (b : Board) (x y : Nat),
    (revealFuel f b x y).size = b.size ∧ (revealFuel f b x y).cells = b.cells ∧
      (revealFuel f b x y).overlay.length = b.overlay.length := by
  intro f
  induction f with
  | zero => exact fun b x y => ⟨rfl, rfl, rfl⟩
  | succ f ih =>
    intro b x y
    rw [revealFuel_succ]
    by_cases h1 : b.overlay.getD (y * b.size + x) OverlayCell.Hidden ≠ OverlayCell.Hidden
    · rw [if_pos h1]
      exact ⟨rfl, rfl, rfl⟩
    · rw [if_neg h1]
      by_cases h2 : b.cells.getD (y * b.size + x) 0 = CELL_EMPTY
      · rw [if_pos h2]
        have h3 := revealAll_frame_of f ih (neighborList b.size x y)
          { b with overlay := b.overlay.set (y * b.size + x) OverlayCell.Visible }
        refine ⟨h3.1, h3.2.1, h3.2.2.trans ?_⟩
        exact List.length_set ..
      · rw [if_neg h2]
        exact ⟨rfl, rfl, List.length_set ..⟩

theorem revealAll_frame (f : Nat) (l : List (Nat × Nat)) (b : Board) :
    (revealAll f b l).size = b.size ∧ (revealAll f b l).cells = b.cells ∧
      (revealAll f b l).overlay.length = b.overlay.length :=
  revealAll_frame_of f (revealFuel_frame f) l b

/-! Pointwise overlay evolution: the only change the flood fill ever makes to
    an overlay entry is Hidden to Visible. -/

@[reducible] def OverlayStep (o o' : List OverlayCell) : Prop :=
  ∀ k : Nat, o'[k]? = o[k]? ∨
    (o'[k]? = some OverlayCell.Visible ∧ o[k]? = some OverlayCell.Hidden)

theorem overlayStep_refl (o : List OverlayCell) : OverlayStep o o :=
  fun _ => Or.inl rfl

theorem overlayStep_trans {o1 o2 o3 : List OverlayCell}
    (h1 : OverlayStep o1 o2) (h2 : OverlayStep o2 o3) : OverlayStep o1 o3 := by
  intro k
  rcases h2 k with h | ⟨ha, hb⟩
  · rw [h]
    exact h1 k
  · rcases h1 k with h | ⟨hc, hd⟩
    · rw [h] at hb
      exact Or.inr ⟨ha, hb⟩
    · rw [hc] at hb
      exact absurd (Option.some.inj hb) (by simp)

theorem overlayStep_set {o : List OverlayCell} {n : Nat}
    (h : o.getD n OverlayCell.Hidden = OverlayCell.Hidden) :
    OverlayStep o (o.set n OverlayCell.Visible) := by
  intro k
  by_cases hk : n = k
  · subst hk
    by_cases hn : n < o.length
    · exact Or.inr ⟨List.getElem?_set_self hn, by rw [getElem?_of_getD o n OverlayCell.Hidden hn, h]⟩
    · left
      have e1 : o[n]? = none := List.getElem?_eq_none (by omega)
      have e2 : (o.set n OverlayCell.Visible)[n]? = none :=
        List.getElem?_eq_none (by rw [List.length_set]; omega)
      rw [e1, e2]
  · exact Or.inl (List.getElem?_set_ne hk)

theorem revealAll_step_of (f : Nat)
    (hf : ∀ (b : Board) (x y : Nat), OverlayStep b.overlay (revealFuel f b x y).overlay) :
    ∀ (l : List (Nat × Nat)) (b : Board), OverlayStep b.overlay (revealAll f b l).overlay
  | [], b => overlayStep_refl _
  | p :: l, b => by
    rw [revealAll_cons]
    exact overlayStep_trans (hf b p.1 p.2) (revealAll_step_of f hf l _)

theorem revealFuel_step : ∀ (f : Nat) (b : Board) (x y : Nat),
    OverlayStep b.overlay (revealFuel f b x y).overlay := by
  intro f
  induction f with
  | zero => exact fun b x y => overlayStep_refl _
  | succ f ih =>
    intro b x y
    rw [revealFuel_succ]
    by_cases h1 : b.overlay.getD (y * b.size + x) OverlayCell.Hidden ≠ OverlayCell.Hidden
    · rw [if_pos h1]
      exact overlayStep_refl _
    · rw [if_neg h1]
      rw [not_not] at h1
      by_cases h2 : b.cells.getD (y * b.size + x) 0 = CELL_EMPTY
      · rw [if_pos h2]
        exact overlayStep_trans (overlayStep_set h1) (revealAll_step_of f ih _ _)
      · rw [if_neg h2]
        exact overlayStep_set h1

theorem revealAll_step (f : Nat) (l : List (Nat × Nat)) (b : Board) :
    OverlayStep b.overlay (revealAll f b l).overlay :=
  revealAll_step_of f (revealFuel_step f) l b

theorem overlayStep_visible {o o' : List OverlayCell} (h : OverlayStep o o') {k : Nat}
    (hv : o[k]? = some OverlayCell.Visible) : o'[k]? = some OverlayCell.Visible := by
  rcases h k with he | ⟨ha, hb⟩
  · rw [he, hv]
  · exact ha

theorem overlayStep_marked {o o' : List OverlayCell} (h : OverlayStep o o') {k : Nat}
    (hv : o[k]? = some OverlayCell.Marked) : o'[k]? = some OverlayCell.Marked := by
  rcases h k with he | ⟨ha, hb⟩
  · rw [he, hv]
  · rw [hv] at hb
    exact absurd (Option.some.inj hb) (by simp)

theorem hiddenCount_le_of_step :
    ∀ (o o' : List OverlayCell), OverlayStep o o' → hiddenCount o' ≤ hiddenCount o := by
  intro o
  induction o with
  | nil =>
    intro o' h
    cases o' with
    | nil => exact Nat.le_refl _
    | cons a t =>
      rcases h 0 with he | ⟨ha, hb⟩
      · simp at he
      · simp at hb
  | cons a t ih =>
    intro o' h
    cases o' with
    | nil =>
      rcases h 0 with he | ⟨ha, hb⟩
      · simp at he
      · simp at ha
    | cons a' t' =>
      have htail : OverlayStep t t' := by
        intro k
        have := h (k + 1)
        simpa using this
      have hht := ih t' htail
      unfold hiddenCount
      rw [List.countP_cons, List.countP_cons]
      rcases h 0 with he | ⟨ha, hb⟩
      · simp only [List.getElem?_cons_zero] at he
        rw [Option.some.inj he]
        unfold hiddenCount at hht
        omega
      · simp only [List.getElem?_cons_zero] at ha hb
        rw [Option.some.inj ha, Option.some.inj hb]
        unfold hiddenCount at hht
        simp
        omega

theorem revealFuel_hiddenCount_le (f : Nat) (b : Board) (x y : Nat) :
    hiddenCount (revealFuel f b x y).overlay ≤ hiddenCount b.overlay :=
  hiddenCount_le_of_step _ _ (revealFuel_step f b x y)

theorem hiddenCount_set_visible {o : List OverlayCell} {n : Nat}
    (h : o[n]? = some OverlayCell.Hidden) :
    hiddenCount (o.set n OverlayCell.Visible) + 1 = hiddenCount o := by
  have hn : n < o.length := by
    by_contra hc
    rw [List.getElem?_eq_none (by omega)] at h
    exact absurd h (by simp)
  have he : o[n] = OverlayCell.Hidden := by
    have := List.getElem?_eq_getElem hn
    rw [h] at this
    exact (Option.some.inj this).symm
  unfold hiddenCount
  rw [List.countP_set _ _ _ _ hn, he]
  have hpos : 0 < o.countP (fun c => c == OverlayCell.Hidden) := by
    rw [List.countP_pos_iff]
    exact ⟨OverlayCell.Hidden, he ▸ List.getElem_mem hn, by simp⟩
  simp
  omega

/-! The cells reachable by the flood-fill recursion started at `(x, y)`:
    the start cell itself, plus everything reachable from an already-reached
    empty cell through one clipped 3x3 neighborhood step. -/

inductive Reach (s : Nat) (cells : List Nat) (x y : Nat) : Nat → Nat → Prop where
  | start : Reach s cells x y x y
  | step {i j p q : Nat} : Reach s cells x y i j →
      cells.getD (j * s + i) 0 = CELL_EMPTY →
      p ∈ blockRange s i → q ∈ blockRange s j →
      Reach s cells x y p q

theorem reach_trans {s : Nat} {cells : List Nat} {x y i j p q : Nat}
    (h1 : Reach s cells x y i j) (h2 : Reach s cells i j p q) :
    Reach s cells x y p q := by
  induction h2 with
  | start => exact h1
  | step hr he hp hq ih => exact Reach.step ih he hp hq

theorem reach_lt {s : Nat} {cells : List Nat} {x y i j : Nat}
    (hx : x < s) (hy : y < s) (h : Reach s cells x y i j) : i < s ∧ j < s := by
  induction h with
  | start => exact ⟨hx, hy⟩
  | step hr he hp hq ih => exact ⟨blockRange_lt hp, blockRange_lt hq⟩

/-! Soundness of the flood fill: every overlay entry it changes belongs to a
    cell reachable from the start cell. -/

theorem revealAll_sound_of (f : Nat)
    (hf : ∀ (b : Board) (x y : Nat), x < b.size → y < b.size →
      ∀ k : Nat, (revealFuel f b x y).overlay[k]? ≠ b.overlay[k]? →
        ∃ i j, i < b.size ∧ j < b.size ∧ k = j * b.size + i ∧
          Reach b.size b.cells x y i j) :
    ∀ (l : List (Nat × Nat)) (b : Board),
      (∀ p ∈ l, p.1 < b.size ∧ p.2 < b.size) →
      ∀ k : Nat, (revealAll f b l).overlay[k]? ≠ b.overlay[k]? →
        ∃ p q i j, (p, q) ∈ l ∧ i < b.size ∧ j < b.size ∧ k = j * b.size + i ∧
          Reach b.size b.cells p q i j
  | [], b, hl, k, hk => absurd rfl hk
  | a :: l, b, hl, k, hk => by
    rw [revealAll_cons] at hk
    obtain ⟨hs, hc, hlen⟩ := revealFuel_frame f b a.1 a.2
    by_cases h2 : (revealAll f (revealFuel f b a.1 a.2) l).overlay[k]?
        = (revealFuel f b a.1 a.2).overlay[k]?
    · have h3 : (revealFuel f b a.1 a.2).overlay[k]? ≠ b.overlay[k]? := by
        rw [← h2]; exact hk
      obtain ⟨ha1, ha2⟩ := hl a (List.mem_cons_self a l)
      obtain ⟨i, j, hi, hj, hke, hr⟩ := hf b a.1 a.2 ha1 ha2 k h3
      exact ⟨a.1, a.2, i, j, List.mem_cons_self a l, hi, hj, hke, hr⟩
    · obtain ⟨p, q, i, j, hm, hi, hj, hke, hr⟩ :=
        revealAll_sound_of f hf l (revealFuel f b a.1 a.2)
          (by intro p hp; rw [hs]; exact hl p (List.mem_cons_of_mem a hp)) k h2
      rw [hs] at hi hj hke
      rw [hs, hc] at hr
      exact ⟨p, q, i, j, List.mem_cons_of_mem a hm, hi, hj, hke, hr⟩

theorem revealFuel_sound : ∀ (f : Nat) (b : Board) (x y : Nat), x < b.size → y < b.size →
    ∀ k : Nat, (revealFuel f b x y).overlay[k]? ≠ b.overlay[k]? →
      ∃ i j, i < b.size ∧ j < b.size ∧ k = j * b.size + i ∧
        Reach b.size b.cells x y i j := by
  intro f
  induction f with
  | zero => exact fun b x y hx hy k hk => absurd rfl hk
  | succ f ih =>
    intro b x y hx hy k hk
    rw [revealFuel_succ] at hk
    by_cases h1 : b.overlay.getD (y * b.size + x) OverlayCell.Hidden ≠ OverlayCell.Hidden
    · rw [if_pos h1] at hk
      exact absurd rfl hk
    · rw [if_neg h1] at hk
      rw [not_not] at h1
      have hset : ∀ k1 : Nat,
          (b.overlay.set (y * b.size + x) OverlayCell.Visible)[k1]? ≠ b.overlay[k1]? →
          k1 = y * b.size + x := by
        intro k1 hk1
        by_contra hne
        exact hk1 (List.getElem?_set_ne (fun he => hne he.symm))
      by_cases h2 : b.cells.getD (y * b.size + x) 0 = CELL_EMPTY
      · rw [if_pos h2] at hk
        set b1 : Board :=
          { b with overlay := b.overlay.set (y * b.size + x) OverlayCell.Visible } with hb1
        by_cases h3 : (revealAll f b1 (neighborList b.size x y)).overlay[k]? = b1.overlay[k]?
        · have h4 : b1.overlay[k]? ≠ b.overlay[k]? := by
            rw [← h3]; exact hk
          have h5 := hset k h4
          exact ⟨x, y, hx, hy, h5, Reach.start⟩
        · obtain ⟨p, q, i, j, hm, hi, hj, hke, hr⟩ :=
            revealAll_sound_of f (ih) (neighborList b.size x y) b1
              (by
                intro p hp
                obtain ⟨a, c⟩ := p
                rw [mem_neighborList] at hp
                exact ⟨blockRange_lt hp.1, blockRange_lt hp.2⟩) k h3
          rw [mem_neighborList] at hm
          have hr1 : Reach b.size b.cells x y p q :=
            Reach.step Reach.start h2 hm.1 hm.2
          exact ⟨i, j, hi, hj, hke, reach_trans hr1 hr⟩
      · rw [if_neg h2] at hk
        have h5 := hset k hk
        exact ⟨x, y, hx, hy, h5, Reach.start⟩

/-! Fuel irrelevance: any fuel above the Hidden-cell count computes the same
    result, so `board_reveal`'s choice of fuel is canonical and the C
    recursion terminates within `size * size` reveals. -/

theorem revealAll_fuel_irrel_of (f g : Nat)
    (hfg : ∀ (b : Board) (x y : Nat), x < b.size → y < b.size →
      b.size * b.size ≤ b.overlay.length →
      hiddenCount b.overlay < f → hiddenCount b.overlay < g →
      revealFuel f b x y = revealFuel g b x y) :
    ∀ (l : List (Nat × Nat)) (b : Board),
      (∀ p ∈ l, p.1 < b.size ∧ p.2 < b.size) →
      b.size * b.size ≤ b.overlay.length →
      hiddenCount b.overlay < f → hiddenCount b.overlay < g →
      revealAll f b l = revealAll g b l
  | [], b, _, _, _, _ => rfl
  | a :: l, b, hl, hlen, h1, h2 => by
    rw [revealAll_cons, revealAll_cons]
    obtain ⟨ha1, ha2⟩ := hl a (List.mem_cons_self a l)
    rw [← hfg b a.1 a.2 ha1 ha2 hlen h1 h2]
    obtain ⟨hs, hc, hlp⟩ := revealFuel_frame f b a.1 a.2
    have hcle := revealFuel_hiddenCount_le f b a.1 a.2
    exact revealAll_fuel_irrel_of f g hfg l (revealFuel f b a.1 a.2)
      (by intro p hp; rw [hs]; exact hl p (List.mem_cons_of_mem a hp))
      (by rw [hs, hlp]; exact hlen) (by omega) (by omega)

theorem revealFuel_fuel_irrel : ∀ (f g : Nat) (b : Board) (x y : Nat),
    x < b.size → y < b.size → b.size * b.size ≤ b.overlay.length →
    hiddenCount b.overlay < f → hiddenCount b.overlay < g →
    revealFuel f b x y = revealFuel g b x y := by
  intro f
  induction f using Nat.strong_induction_on with
  | _ f ih =>
    intro g b x y hx hy hlen h1 h2
    match f, h1 with
    | f1 + 1, h1 =>
      match g, h2 with
      | g1 + 1, h2 =>
        rw [revealFuel_succ, revealFuel_succ]
        by_cases hg : b.overlay.getD (y * b.size + x) OverlayCell.Hidden ≠ OverlayCell.Hidden
        · rw [if_pos hg, if_pos hg]
        · rw [if_neg hg, if_neg hg]
          rw [not_not] at hg
          by_cases he : b.cells.getD (y * b.size + x) 0 = CELL_EMPTY
          · rw [if_pos he, if_pos he]
            have hn0 : y * b.size + x < b.overlay.length :=
              Nat.lt_of_lt_of_le (idx_lt hx hy) hlen
            have hsome : b.overlay[y * b.size + x]? = some OverlayCell.Hidden := by
              rw [getElem?_of_getD b.overlay _ OverlayCell.Hidden hn0, hg]
            have hdec := hiddenCount_set_visible hsome
            apply revealAll_fuel_irrel_of f1 g1
              (fun b' x' y' a1 a2 a3 a4 a5 =>
                ih f1 (Nat.lt_succ_self f1) g1 b' x' y' a1 a2 a3 a4 a5)
            · intro p hp
              obtain ⟨a, c⟩ := p
              rw [mem_neighborList] at hp
              exact ⟨blockRange_lt hp.1, blockRange_lt hp.2⟩
            · show b.size * b.size ≤ (b.overlay.set (y * b.size + x) OverlayCell.Visible).length
              rw [List.length_set]
              exact hlen
            · show hiddenCount (b.overlay.set (y * b.size + x) OverlayCell.Visible) < f1
              omega
            · show hiddenCount (b.overlay.set (y * b.size + x) OverlayCell.Visible) < g1
              omega
          · rw [if_neg he, if_neg he]

theorem revealAll_visible (f : Nat) (l : List (Nat × Nat)) (b : Board) {k : Nat}
    (h : b.overlay[k]? = some OverlayCell.Visible) :
    (revealAll f b l).overlay[k]? = some OverlayCell.Visible :=
  overlayStep_visible (revealAll_step f l b) h

theorem revealFuel_not_hidden (f : Nat) (b : Board) (x y : Nat) (hf : 0 < f)
    (hx : x < b.size) (hy : y < b.size) (hlen : b.size * b.size ≤ b.overlay.length) :
    (revealFuel f b x y).overlay.getD (y * b.size + x) OverlayCell.Hidden
      ≠ OverlayCell.Hidden := by
  match f, hf with
  | f1 + 1, _ =>
    rw [revealFuel_succ]
    by_cases h1 : b.overlay.getD (y * b.size + x) OverlayCell.Hidden ≠ OverlayCell.Hidden
    · rw [if_pos h1]
      exact h1
    · rw [if_neg h1]
      have hn0 : y * b.size + x < b.overlay.length :=
        Nat.lt_of_lt_of_le (idx_lt hx hy) hlen
      have hvis : (b.overlay.set (y * b.size + x) OverlayCell.Visible)[y * b.size + x]?
          = some OverlayCell.Visible := List.getElem?_set_self hn0
      by_cases h2 : b.cells.getD (y * b.size + x) 0 = CELL_EMPTY
      · rw [if_pos h2]
        have h3 := revealAll_visible f1 (neighborList b.size x y)
          { b with overlay := b.overlay.set (y * b.size + x) OverlayCell.Visible } hvis
        rw [List.getD_eq_getElem?_getD, h3]
        simp
      · rw [if_neg h2]
        show (b.overlay.set (y * b.size + x) OverlayCell.Visible).getD _ _ ≠ _
        rw [List.getD_eq_getElem?_getD, hvis]
        simp

theorem board_reveal_eq_fuel (b : Board) (x y : Nat) (f : Nat)
    (hx : x < b.size) (hy : y < b.size) (hlen : b.size * b.size ≤ b.overlay.length)
    (hf : hiddenCount b.overlay < f) : revealFuel f b x y = board_reveal b x y :=
  revealFuel_fuel_irrel f (hiddenCount b.overlay + 1) b x y hx hy hlen hf
    (Nat.lt_succ_self _)

theorem board_reveal_def (b : Board) (x y : Nat) :
    board_reveal b x y = revealFuel (hiddenCount b.overlay + 1) b x y := rfl

theorem reveal_noop (b : Board) (x y : Nat)
    (h : b.overlay.getD (y * b.size + x) OverlayCell.Hidden ≠ OverlayCell.Hidden) :
    board_reveal b x y = b := by
  rw [board_reveal_def, revealFuel_succ, if_pos h]

theorem board_eq_of {b b' : Board} (hs : b'.size = b.size) (hc : b'.cells = b.cells)
    (ho : b'.overlay = b.overlay) : b' = b := by
  cases b
  cases b'
  simp_all

theorem mark_of_hidden {b : Board} {x y : Nat}
    (h : b.overlay.getD (y * b.size + x) OverlayCell.Hidden = OverlayCell.Hidden) :
    board_mark b x y
      = { b with overlay := b.overlay.set (y * b.size + x) OverlayCell.Marked } := by
  unfold board_mark
  rw [h]

theorem mark_of_marked {b : Board} {x y : Nat}
    (h : b.overlay.getD (y * b.size + x) OverlayCell.Hidden = OverlayCell.Marked) :
    board_mark b x y
      = { b with overlay := b.overlay.set (y * b.size + x) OverlayCell.Hidden } := by
  unfold board_mark
  rw [h]

theorem mark_of_visible {b : Board} {x y : Nat}
    (h : b.overlay.getD (y * b.size + x) OverlayCell.Hidden = OverlayCell.Visible) :
    board_mark b x y = b := by
  unfold board_mark
  rw [h]

theorem mark_size_cells (b : Board) (x y : Nat) :
    (board_mark b x y).size = b.size ∧ (board_mark b x y).cells = b.cells := by
  cases hc : b.overlay.getD (y * b.size + x) OverlayCell.Hidden with
  | Hidden => rw [mark_of_hidden hc]; exact ⟨rfl, rfl⟩
  | Marked => rw [mark_of_marked hc]; exact ⟨rfl, rfl⟩
  | Visible => rw [mark_of_visible hc]; exact ⟨rfl, rfl⟩

theorem mark_step (b : Board) (x y : Nat) (k : Nat) :
    (board_mark b x y).overlay[k]? = b.overlay[k]? ∨
      ((board_mark b x y).overlay[k]? = some OverlayCell.Marked ∧
        b.overlay[k]? = some OverlayCell.Hidden) ∨
      ((board_mark b x y).overlay[k]? = some OverlayCell.Hidden ∧
        b.overlay[k]? = some OverlayCell.Marked) := by
  by_cases hk : y * b.size + x = k
  · subst hk
    by_cases hn : y * b.size + x < b.overlay.length
    · have hsome := getElem?_of_getD b.overlay (y * b.size + x) OverlayCell.Hidden hn
      cases hc : b.overlay.getD (y * b.size + x) OverlayCell.Hidden with
      | Hidden =>
        rw [hc] at hsome
        rw [mark_of_hidden hc]
        exact Or.inr (Or.inl ⟨List.getElem?_set_self hn, hsome⟩)
      | Marked =>
        rw [hc] at hsome
        rw [mark_of_marked hc]
        exact Or.inr (Or.inr ⟨List.getElem?_set_self hn, hsome⟩)
      | Visible =>
        rw [mark_of_visible hc]
        exact Or.inl rfl
    · cases hc : b.overlay.getD (y * b.size + x) OverlayCell.Hidden with
      | Hidden =>
        left
        rw [mark_of_hidden hc]
        rw [List.getElem?_eq_none (l := b.overlay) (by omega)]
        exact List.getElem?_eq_none (by rw [List.length_set]; omega)
      | Marked =>
        left
        rw [mark_of_marked hc]
        rw [List.getElem?_eq_none (l := b.overlay) (by omega)]
        exact List.getElem?_eq_none (by rw [List.length_set]; omega)
      | Visible =>
        rw [mark_of_visible hc]
        exact Or.inl rfl
  · cases hc : b.overlay.getD (y * b.size + x) OverlayCell.Hidden with
    | Hidden =>
      rw [mark_of_hidden hc]
      exact Or.inl (List.getElem?_set_ne hk)
    | Marked =>
      rw [mark_of_marked hc]
      exact Or.inl (List.getElem?_set_ne hk)
    | Visible =>
      rw [mark_of_visible hc]
      exact Or.inl rfl

/-- C5: if the target cell's overlay is not Hidden, `board_reveal` leaves the
    board unchanged; revealing twice equals revealing once; a Marked cell
    stays Marked under any `board_reveal` call. -/
theorem C5_reveal_idempotent (b : Board) (x y : Nat)
    (hx : x < b.size) (hy : y < b.size) (hlen : b.size * b.size ≤ b.overlay.length) :
    (b.overlay.getD (y * b.size + x) OverlayCell.Hidden ≠ OverlayCell.Hidden →
      board_reveal b x y = b)
    ∧ board_reveal (board_reveal b x y) x y = board_reveal b x y
    ∧ (∀ k : Nat, b.overlay[k]? = some OverlayCell.Marked →
        (board_reveal b x y).overlay[k]? = some OverlayCell.Marked) := by
  refine ⟨reveal_noop b x y, ?_, ?_⟩
  · obtain ⟨hs, hc, hl⟩ := revealFuel_frame (hiddenCount b.overlay + 1) b x y
    rw [← board_reveal_def b x y] at hs hc hl
    have hnh := revealFuel_not_hidden (hiddenCount b.overlay + 1) b x y
      (Nat.succ_pos _) hx hy hlen
    rw [← board_reveal_def b x y] at hnh
    apply reveal_noop
    rw [hs]
    exact hnh
  · intro k hk
    exact overlayStep_marked (revealFuel_step (hiddenCount b.overlay + 1) b x y) hk

/-- C6: `board_mark` toggles the target overlay entry between Hidden and
    Marked, is a no-op on a Visible entry, changes no other cell and no cell
    value, and marking twice restores the original board. -/
theorem C6_mark_toggle (b : Board) (x y : Nat)
    (hx : x < b.size) (hy : y < b.size) (hlen : b.size * b.size ≤ b.overlay.length) :
    (board_mark b x y).size = b.size ∧ (board_mark b x y).cells = b.cells
    ∧ (b.overlay.getD (y * b.size + x) OverlayCell.Hidden = OverlayCell.Hidden →
        (board_mark b x y).overlay.getD (y * b.size + x) OverlayCell.Hidden
          = OverlayCell.Marked)
    ∧ (b.overlay.getD (y * b.size + x) OverlayCell.Hidden = OverlayCell.Marked →
        (board_mark b x y).overlay.getD (y * b.size + x) OverlayCell.Hidden
          = OverlayCell.Hidden)
    ∧ (b.overlay.getD (y * b.size + x) OverlayCell.Hidden = OverlayCell.Visible →
        board_mark b x y = b)
    ∧ (∀ k : Nat, k ≠ y * b.size + x → (board_mark b x y).overlay[k]? = b.overlay[k]?)
    ∧ board_mark (board_mark b x y) x y = b := by
  have hn0 : y * b.size + x < b.overlay.length := Nat.lt_of_lt_of_le (idx_lt hx hy) hlen
  obtain ⟨hms, hmc⟩ := mark_size_cells b x y
  refine ⟨hms, hmc, ?_, ?_, ?_, ?_, ?_⟩
  · intro h
    rw [mark_of_hidden h]
    exact getD_set_self _ _ _ _ hn0
  · intro h
    rw [mark_of_marked h]
    exact getD_set_self _ _ _ _ hn0
  · exact fun h => mark_of_visible h
  · intro k hk
    cases hc : b.overlay.getD (y * b.size + x) OverlayCell.Hidden with
    | Hidden =>
      rw [mark_of_hidden hc]
      exact List.getElem?_set_ne (fun he => hk he.symm)
    | Marked =>
      rw [mark_of_marked hc]
      exact List.getElem?_set_ne (fun he => hk he.symm)
    | Visible => rw [mark_of_visible hc]
  · cases hc : b.overlay.getD (y * b.size + x) OverlayCell.Hidden with
    | Hidden =>
      rw [mark_of_hidden hc]
      have h2 : ({ b with overlay := b.overlay.set (y * b.size + x) OverlayCell.Marked }
            : Board).overlay.getD
          (y * ({ b with overlay := b.overlay.set (y * b.size + x) OverlayCell.Marked }
            : Board).size + x) OverlayCell.Hidden = OverlayCell.Marked := by
        show (b.overlay.set (y * b.size + x) OverlayCell.Marked).getD
          (y * b.size + x) OverlayCell.Hidden = OverlayCell.Marked
        exact getD_set_self _ _ _ _ hn0
      rw [mark_of_marked h2]
      refine board_eq_of rfl rfl ?_
      show (b.overlay.set (y * b.size + x) OverlayCell.Marked).set
        (y * b.size + x) OverlayCell.Hidden = b.overlay
      rw [List.set_set]
      exact set_getD_self _ _ _ OverlayCell.Hidden hc hn0
    | Marked =>
      rw [mark_of_marked hc]
      have h2 : ({ b with overlay := b.overlay.set (y * b.size + x) OverlayCell.Hidden }
            : Board).overlay.getD
          (y * ({ b with overlay := b.overlay.set (y * b.size + x) OverlayCell.Hidden }
            : Board).size + x) OverlayCell.Hidden = OverlayCell.Hidden := by
        show (b.overlay.set (y * b.size + x) OverlayCell.Hidden).getD
          (y * b.size + x) OverlayCell.Hidden = OverlayCell.Hidden
        exact getD_set_self _ _ _ _ hn0
      rw [mark_of_hidden h2]
      refine board_eq_of rfl rfl ?_
      show (b.overlay.set (y * b.size + x) OverlayCell.Hidden).set
        (y * b.size + x) OverlayCell.Marked = b.overlay
      rw [List.set_set]
      exact set_getD_self _ _ _ OverlayCell.Hidden hc hn0
    | Visible =>
      rw [mark_of_visible hc, mark_of_visible hc]

/-- C8: a Visible overlay entry stays Visible under both `board_reveal` and
    `board_mark`; `board_mark` never turns any entry Visible (in particular
    not a Marked one); `board_reveal` makes an entry Visible only if it was
    Visible or Hidden before. -/
theorem C8_visibility_monotone (b : Board) (x y : Nat)
    (hx : x < b.size) (hy : y < b.size) (hlen : b.size * b.size ≤ b.overlay.length)
    (k : Nat) :
    (b.overlay[k]? = some OverlayCell.Visible →
      (board_reveal b x y).overlay[k]? = some OverlayCell.Visible)
    ∧ (b.overlay[k]? = some OverlayCell.Visible →
      (board_mark b x y).overlay[k]? = some OverlayCell.Visible)
    ∧ (b.overlay[k]? = some OverlayCell.Marked →
      (board_mark b x y).overlay[k]? ≠ some OverlayCell.Visible)
    ∧ ((board_mark b x y).overlay[k]? = some OverlayCell.Visible →
      b.overlay[k]? = some OverlayCell.Visible)
    ∧ ((board_reveal b x y).overlay[k]? = some OverlayCell.Visible →
      b.overlay[k]? = some OverlayCell.Visible ∨ b.overlay[k]? = some OverlayCell.Hidden) := by
  refine ⟨?_, ?_, ?_, ?_, ?_⟩
  · exact overlayStep_visible (revealFuel_step (hiddenCount b.overlay + 1) b x y)
  · intro h
    rcases mark_step b x y k with he | ⟨h1, h2⟩ | ⟨h1, h2⟩
    · rw [he, h]
    · rw [h] at h2
      exact absurd (Option.some.inj h2) (by simp)
    · rw [h] at h2
      exact absurd (Option.some.inj h2) (by simp)
  · intro h hv
    rcases mark_step b x y k with he | ⟨h1, h2⟩ | ⟨h1, h2⟩
    · rw [he, h] at hv
      exact absurd (Option.some.inj hv) (by simp)
    · rw [h1] at hv
      exact absurd (Option.some.inj hv) (by simp)
    · rw [h1] at hv
      exact absurd (Option.some.inj hv) (by simp)
  · intro hv
    rcases mark_step b x y k with he | ⟨h1, h2⟩ | ⟨h1, h2⟩
    · rw [← he, hv]
    · rw [h1] at hv
      exact absurd (Option.some.inj hv) (by simp)
    · rw [h1] at hv
      exact absurd (Option.some.inj hv) (by simp)
  · intro hv
    rcases revealFuel_step (hiddenCount b.overlay + 1) b x y k with he | ⟨h1, h2⟩
    · rw [← he]
      exact Or.inl hv
    · exact Or.inr h2

/-- C9: the flood fill of `board_reveal` terminates: every cell transitions
    Hidden to Visible at most once, so any fuel larger than the number of
    Hidden cells computes the same board, and on a board with exactly
    `size * size` overlay entries a nesting depth of `size * size + 1`
    always suffices. -/
theorem C9_reveal_terminates (b : Board) (x y : Nat) (f : Nat)
    (hx : x < b.size) (hy : y < b.size) (hlen : b.size * b.size ≤ b.overlay.length)
    (hf : hiddenCount b.overlay < f) :
    revealFuel f b x y = board_reveal b x y
    ∧ (b.overlay.length = b.size * b.size →
        revealFuel (b.size * b.size + 1) b x y = board_reveal b x y) := by
  refine ⟨board_reveal_eq_fuel b x y f hx hy hlen hf, ?_⟩
  intro he
  apply board_reveal_eq_fuel b x y _ hx hy hlen
  have hcl : hiddenCount b.overlay ≤ b.overlay.length := List.countP_le_length _
  omega

/-! Game-state query.  For the frame claim the query is also modelled in
    state-passing style: the board is threaded through every loop iteration
    exactly as the C scans do with `board`, so that "the query does not
    mutate the board" is a provable statement rather than a convention. -/

/-- One iteration of a scan loop of `board_check_game_state`, with the board
    threaded: an early `return` is a `some` result that freezes the
    accumulator. -/
def checkStep (p : Board → Nat → Bool) (r : GameState)
    (acc : Option GameState × Board) (q : Nat × Nat) : Option GameState × Board :=
  match acc with
  | (some g, bb) => (some g, bb)
  | (none, bb) => if p bb (q.2 * bb.size + q.1) then (some r, bb) else (none, bb)

/-- One double scan loop of `board_check_game_state`, board threaded. -/
def checkScan (p : Board → Nat → Bool) (r : GameState) (b : Board) :
    Option GameState × Board :=
  (prodPairs (List.range b.size) (List.range b.size)).foldl (checkStep p r) (none, b)

/-- `board_check_game_state` in state-passing style. -/
def board_check_game_state_st (b : Board) : GameState × Board :=
  match checkScan cellIsVisibleMine GameState.Lost b with
  | (some g, b1) => (g, b1)
  | (none, b1) =>
    match checkScan cellIsHiddenSafe GameState.Unfinished b1 with
    | (some g, b2) => (g, b2)
    | (none, b2) => (GameState.Won, b2)

theorem foldl_checkStep_some (p : Board → Nat → Bool) (r : GameState) (g : GameState)
    (bb : Board) : ∀ l : List (Nat × Nat),
    l.foldl (checkStep p r) (some g, bb) = (some g, bb)
  | [] => rfl
  | _ :: l => foldl_checkStep_some p r g bb l

theorem foldl_checkStep_none (p : Board → Nat → Bool) (r : GameState) :
    ∀ (l : List (Nat × Nat)) (bb : Board),
      l.foldl (checkStep p r) (none, bb)
        = (if l.any (fun q => p bb (q.2 * bb.size + q.1)) then some r else none, bb)
  | [], _ => rfl
  | q :: l, bb => by
    rw [List.foldl_cons, List.any_cons]
    by_cases hq : p bb (q.2 * bb.size + q.1)
    · have hstep : checkStep p r (none, bb) q = (some r, bb) := by
        show (if p bb (q.2 * bb.size + q.1) = true
          then ((some r : Option GameState), bb) else (none, bb)) = (some r, bb)
        rw [if_pos hq]
      rw [hstep, foldl_checkStep_some, hq]
      simp
    · have hqf : p bb (q.2 * bb.size + q.1) = false := by simpa using hq
      have hstep : checkStep p r (none, bb) q = (none, bb) := by
        show (if p bb (q.2 * bb.size + q.1) = true
          then ((some r : Option GameState), bb) else (none, bb)) = (none, bb)
        rw [if_neg hq]
      rw [hstep, foldl_checkStep_none p r l bb, hqf, Bool.false_or]

theorem any_map_fun {α β : Type _} (f : α → β) (p : β → Bool) :
    ∀ l : List α, (l.map f).any p = l.any (fun a => p (f a))
  | [] => rfl
  | a :: l => by
    rw [List.map_cons, List.any_cons, List.any_cons, any_map_fun f p l]

theorem any_prodPairs (q : Nat × Nat → Bool) :
    ∀ (js is : List Nat),
      (prodPairs js is).any q = js.any (fun j => is.any (fun i => q (i, j)))
  | [], _ => rfl
  | j :: js, is => by
    simp only [prodPairs, List.any_append, List.any_cons]
    rw [any_map_fun, any_prodPairs q js is]

theorem checkScan_eq (p : Board → Nat → Bool) (r : GameState) (b : Board) :
    checkScan p r b = (if scanAny b p then some r else none, b) := by
  unfold checkScan scanAny
  rw [foldl_checkStep_none, any_prodPairs]

theorem cellIsVisibleMine_iff (b : Board) (n : Nat) :
    cellIsVisibleMine b n = true ↔
      (b.overlay.getD n OverlayCell.Hidden = OverlayCell.Visible ∧
        b.cells.getD n 0 = CELL_MINE) := by
  simp [cellIsVisibleMine]

theorem cellIsHiddenSafe_iff (b : Board) (n : Nat) :
    cellIsHiddenSafe b n = true ↔
      (b.overlay.getD n OverlayCell.Hidden = OverlayCell.Hidden ∧
        b.cells.getD n 0 ≠ CELL_MINE) := by
  simp [cellIsHiddenSafe]

/-- C10: `board_check_game_state` is a pure query: the state-threaded scans
    return the board unchanged, the returned result is the one computed by
    the functional definition, and repeating the call yields the same
    result. -/
theorem C10_check_pure (b : Board) :
    (board_check_game_state_st b).2 = b
    ∧ (board_check_game_state_st b).1 = board_check_game_state b
    ∧ (board_check_game_state_st ((board_check_game_state_st b).2)).1
        = (board_check_game_state_st b).1 := by
  have hmain : board_check_game_state_st b = (board_check_game_state b, b) := by
    unfold board_check_game_state_st board_check_game_state
    rw [checkScan_eq]
    by_cases h1 : scanAny b cellIsVisibleMine
    · rw [if_pos h1, if_pos h1]
    · rw [if_neg h1, if_neg h1]
      show (match checkScan cellIsHiddenSafe GameState.Unfinished b with
        | (some g, b2) => (g, b2)
        | (none, b2) => (GameState.Won, b2)) = _
      rw [checkScan_eq]
      by_cases h2 : scanAny b cellIsHiddenSafe
      · rw [if_pos h2, if_pos h2]
      · rw [if_neg h2, if_neg h2]
  rw [hmain]
  exact ⟨rfl, rfl, by rw [hmain]⟩

/-- C7: `board_check_game_state` returns Lost exactly when some in-board cell
    is a mine with a Visible overlay, whatever the other cells are; the
    Visible-mine scan runs before the other checks. -/
theorem C7_lost_iff (b : Board) :
    board_check_game_state b = GameState.Lost ↔
      ∃ n, n < b.size * b.size ∧
        b.overlay.getD n OverlayCell.Hidden = OverlayCell.Visible ∧
        b.cells.getD n 0 = CELL_MINE := by
  unfold board_check_game_state
  by_cases h1 : scanAny b cellIsVisibleMine
  · rw [if_pos h1]
    constructor
    · intro _
      obtain ⟨n, hn, hp⟩ := scanAny_iff.mp h1
      rw [cellIsVisibleMine_iff] at hp
      exact ⟨n, hn, hp.1, hp.2⟩
    · intro _
      rfl
  · rw [if_neg h1]
    constructor
    · intro hw
      by_cases h2 : scanAny b cellIsHiddenSafe
      · rw [if_pos h2] at hw
        exact absurd hw (by simp)
      · rw [if_neg h2] at hw
        exact absurd hw (by simp)
    · rintro ⟨n, hn, ho, hc⟩
      exact absurd (scanAny_iff.mpr ⟨n, hn, (cellIsVisibleMine_iff b n).mpr ⟨ho, hc⟩⟩) h1

/-- C1 counterexample: a 1-by-1 board with a single non-mine cell whose
    overlay is Marked.  `board_check_game_state` returns Won although that
    non-mine cell is not Visible, so a Marked non-mine cell does not prevent
    a Won result, contrary to the claim. -/
theorem C1_counterexample :
    board_check_game_state
        { size := 1, cells := [0], overlay := [OverlayCell.Marked] } = GameState.Won
    ∧ ({ size := 1, cells := [0], overlay := [OverlayCell.Marked] }
          : Board).cells.getD 0 0 ≠ CELL_MINE
    ∧ ({ size := 1, cells := [0], overlay := [OverlayCell.Marked] }
          : Board).overlay.getD 0 OverlayCell.Hidden ≠ OverlayCell.Visible := by
  refine ⟨?_, by decide, by decide⟩
  decide

/-- C1 (amended): `board_check_game_state` returns Won iff no in-board mine
    cell is Visible and no in-board non-mine cell is Hidden; a Marked
    non-mine cell does not prevent Won. -/
theorem C1_won_iff (b : Board) :
    board_check_game_state b = GameState.Won ↔
      ((∀ n : Nat, n < b.size * b.size →
          ¬(b.overlay.getD n OverlayCell.Hidden = OverlayCell.Visible ∧
            b.cells.getD n 0 = CELL_MINE)) ∧
        (∀ n : Nat, n < b.size * b.size → b.cells.getD n 0 ≠ CELL_MINE →
          b.overlay.getD n OverlayCell.Hidden ≠ OverlayCell.Hidden)) := by
  unfold board_check_game_state
  by_cases h1 : scanAny b cellIsVisibleMine
  · rw [if_pos h1]
    constructor
    · intro hw
      exact absurd hw (by simp)
    · rintro ⟨hall, _⟩
      obtain ⟨n, hn, hp⟩ := scanAny_iff.mp h1
      rw [cellIsVisibleMine_iff] at hp
      exact absurd hp (hall n hn)
  · rw [if_neg h1]
    by_cases h2 : scanAny b cellIsHiddenSafe
    · rw [if_pos h2]
      constructor
      · intro hw
        exact absurd hw (by simp)
      · rintro ⟨_, hall⟩
        obtain ⟨n, hn, hp⟩ := scanAny_iff.mp h2
        rw [cellIsHiddenSafe_iff] at hp
        exact absurd hp.1 (hall n hn hp.2)
    · rw [if_neg h2]
      constructor
      · intro _
        constructor
        · intro n hn hp
          exact h1 (scanAny_iff.mpr ⟨n, hn, (cellIsVisibleMine_iff b n).mpr hp⟩)
        · intro n hn hs hh
          exact h2 (scanAny_iff.mpr ⟨n, hn, (cellIsHiddenSafe_iff b n).mpr ⟨hh, hs⟩⟩)
      · intro _
        rfl

/-- Witness for C5 at the concrete board with one Marked non-mine cell. -/
theorem C5_reveal_idempotent_witness :
    0 < ({ size := 1, cells := [0], overlay := [OverlayCell.Marked] } : Board).size
    ∧ board_reveal { size := 1, cells := [0], overlay := [OverlayCell.Marked] } 0 0
        = { size := 1, cells := [0], overlay := [OverlayCell.Marked] } :=
  ⟨by decide,
    (C5_reveal_idempotent { size := 1, cells := [0], overlay := [OverlayCell.Marked] }
      0 0 (by decide) (by decide) (by decide)).1 (by decide)⟩

/-- Witness for C6 at a concrete 1-by-1 Hidden board: marking turns the cell
    Marked, and marking twice restores the board. -/
theorem C6_mark_toggle_witness :
    (board_mark { size := 1, cells := [0], overlay := [OverlayCell.Hidden] } 0 0).overlay.getD
        0 OverlayCell.Hidden = OverlayCell.Marked
    ∧ board_mark (board_mark { size := 1, cells := [0], overlay := [OverlayCell.Hidden] } 0 0)
        0 0 = { size := 1, cells := [0], overlay := [OverlayCell.Hidden] } := by
  have h := C6_mark_toggle { size := 1, cells := [0], overlay := [OverlayCell.Hidden] }
    0 0 (by decide) (by decide) (by decide)
  exact ⟨h.2.2.1 (by decide), h.2.2.2.2.2.2⟩

/-- Witness for C8 at a concrete board with a Visible cell. -/
theorem C8_visibility_monotone_witness :
    0 < ({ size := 1, cells := [0], overlay := [OverlayCell.Visible] } : Board).size
    ∧ (({ size := 1, cells := [0], overlay := [OverlayCell.Visible] } : Board).overlay[0]?
          = some OverlayCell.Visible →
        (board_reveal { size := 1, cells := [0], overlay := [OverlayCell.Visible] }
          0 0).overlay[0]? = some OverlayCell.Visible) :=
  ⟨by decide,
    (C8_visibility_monotone { size := 1, cells := [0], overlay := [OverlayCell.Visible] }
      0 0 (by decide) (by decide) (by decide) 0).1⟩

/-- Witness for C9 at a concrete 1-by-1 Hidden board with fuel 2. -/
theorem C9_reveal_terminates_witness :
    revealFuel 2 { size := 1, cells := [0], overlay := [OverlayCell.Hidden] } 0 0
      = board_reveal { size := 1, cells := [0], overlay := [OverlayCell.Hidden] } 0 0 :=
  (C9_reveal_terminates { size := 1, cells := [0], overlay := [OverlayCell.Hidden] }
    0 0 2 (by decide) (by decide) (by decide) (by decide)).1

/-! Completeness of the flood fill.  `RInv b L` says: every in-range Visible
    empty cell of `b` has each of its clipped 3x3 neighbors either already
    non-Hidden or still pending in the worklist `L`.  The flood fill
    establishes `RInv _ []`, from which every reachable cell is Visible. -/

@[reducible] def RInv (b : Board) (L : List (Nat × Nat)) : Prop :=
  ∀ i j : Nat, i < b.size → j < b.size →
    b.overlay.getD (j * b.size + i) OverlayCell.Hidden = OverlayCell.Visible →
    b.cells.getD (j * b.size + i) 0 = CELL_EMPTY →
    ∀ p ∈ blockRange b.size i, ∀ q ∈ blockRange b.size j,
      b.overlay.getD (q * b.size + p) OverlayCell.Hidden ≠ OverlayCell.Hidden ∨ (p, q) ∈ L

theorem reveal_inv : ∀ f : Nat,
    (∀ (b : Board) (x y : Nat) (L : List (Nat × Nat)),
      x < b.size → y < b.size → b.size * b.size ≤ b.overlay.length →
      hiddenCount b.overlay < f → RInv b L →
      RInv (revealFuel f b x y) L ∧
        (revealFuel f b x y).overlay.getD (y * b.size + x) OverlayCell.Hidden
          ≠ OverlayCell.Hidden)
    ∧
    (∀ (M : List (Nat × Nat)) (b : Board) (L : List (Nat × Nat)),
      (∀ pq ∈ M, pq.1 < b.size ∧ pq.2 < b.size) →
      b.size * b.size ≤ b.overlay.length →
      hiddenCount b.overlay < f → RInv b (M ++ L) →
      RInv (revealAll f b M) L) := by
  intro f
  induction f using Nat.strong_induction_on with
  | _ f ih =>
    have hP : ∀ (b : Board) (x y : Nat) (L : List (Nat × Nat)),
        x < b.size → y < b.size → b.size * b.size ≤ b.overlay.length →
        hiddenCount b.overlay < f → RInv b L →
        RInv (revealFuel f b x y) L ∧
          (revealFuel f b x y).overlay.getD (y * b.size + x) OverlayCell.Hidden
            ≠ OverlayCell.Hidden := by
      intro b x y L hx hy hlen hc hinv
      match f, hc with
      | f1 + 1, hc =>
        rw [revealFuel_succ]
        by_cases hg : b.overlay.getD (y * b.size + x) OverlayCell.Hidden
            ≠ OverlayCell.Hidden
        · rw [if_pos hg]
          exact ⟨hinv, hg⟩
        · rw [if_neg hg]
          rw [not_not] at hg
          have hn0 : y * b.size + x < b.overlay.length :=
            Nat.lt_of_lt_of_le (idx_lt hx hy) hlen
          have hsome : b.overlay[y * b.size + x]? = some OverlayCell.Hidden := by
            rw [getElem?_of_getD b.overlay _ OverlayCell.Hidden hn0, hg]
          have hdec := hiddenCount_set_visible hsome
          have hb1vis : (b.overlay.set (y * b.size + x) OverlayCell.Visible).getD
              (y * b.size + x) OverlayCell.Hidden = OverlayCell.Visible :=
            getD_set_self _ _ _ _ hn0
          by_cases he : b.cells.getD (y * b.size + x) 0 = CELL_EMPTY
          · rw [if_pos he]
            have hinv1 : RInv
                { b with overlay := b.overlay.set (y * b.size + x) OverlayCell.Visible }
                (neighborList b.size x y ++ L) := by
              intro i j hi hj hvis hemp p hp q hq
              by_cases hij : j * b.size + i = y * b.size + x
              · obtain ⟨hieq, hjeq⟩ := idx_inj hi hx hij
                subst hieq
                subst hjeq
                right
                exact List.mem_append_left _ (mem_neighborList.mpr ⟨hp, hq⟩)
              · have hvis0 : b.overlay.getD (j * b.size + i) OverlayCell.Hidden
                    = OverlayCell.Visible := by
                  rw [← getD_set_ne b.overlay (y * b.size + x) (j * b.size + i)
                    OverlayCell.Visible OverlayCell.Hidden (fun hh => hij hh.symm)]
                  exact hvis
                rcases hinv i j hi hj hvis0 hemp p hp q hq with hnh | hmem
                · left
                  by_cases hpq : q * b.size + p = y * b.size + x
                  · show (b.overlay.set (y * b.size + x) OverlayCell.Visible).getD
                        (q * b.size + p) OverlayCell.Hidden ≠ OverlayCell.Hidden
                    rw [hpq, hb1vis]
                    simp
                  · show (b.overlay.set (y * b.size + x) OverlayCell.Visible).getD
                        (q * b.size + p) OverlayCell.Hidden ≠ OverlayCell.Hidden
                    rw [getD_set_ne b.overlay (y * b.size + x) (q * b.size + p)
                      OverlayCell.Visible OverlayCell.Hidden (fun hh => hpq hh.symm)]
                    exact hnh
                · right
                  exact List.mem_append_right _ hmem
            have hA1 := (ih f1 (Nat.lt_succ_self f1)).2 (neighborList b.size x y)
              { b with overlay := b.overlay.set (y * b.size + x) OverlayCell.Visible }
              L
              (by
                intro pq hpq
                obtain ⟨a, c⟩ := pq
                rw [mem_neighborList] at hpq
                exact ⟨blockRange_lt hpq.1, blockRange_lt hpq.2⟩)
              (by
                show b.size * b.size
                  ≤ (b.overlay.set (y * b.size + x) OverlayCell.Visible).length
                rw [List.length_set]
                exact hlen)
              (by
                show hiddenCount (b.overlay.set (y * b.size + x) OverlayCell.Visible) < f1
                omega)
              hinv1
            refine ⟨hA1, ?_⟩
            have hvis2 : (b.overlay.set (y * b.size + x) OverlayCell.Visible)[y
                * b.size + x]? = some OverlayCell.Visible := List.getElem?_set_self hn0
            have hvis3 := revealAll_visible f1 (neighborList b.size x y)
              { b with overlay := b.overlay.set (y * b.size + x) OverlayCell.Visible }
              hvis2
            rw [List.getD_eq_getElem?_getD, hvis3]
            simp
          · rw [if_neg he]
            constructor
            · intro i j hi hj hvis hemp p hp q hq
              by_cases hij : j * b.size + i = y * b.size + x
              · obtain ⟨hieq, hjeq⟩ := idx_inj hi hx hij
                subst hieq
                subst hjeq
                exact absurd hemp he
              · have hvis0 : b.overlay.getD (j * b.size + i) OverlayCell.Hidden
                    = OverlayCell.Visible := by
                  rw [← getD_set_ne b.overlay (y * b.size + x) (j * b.size + i)
                    OverlayCell.Visible OverlayCell.Hidden (fun hh => hij hh.symm)]
                  exact hvis
                rcases hinv i j hi hj hvis0 hemp p hp q hq with hnh | hmem
                · left
                  by_cases hpq : q * b.size + p = y * b.size + x
                  · show (b.overlay.set (y * b.size + x) OverlayCell.Visible).getD
                        (q * b.size + p) OverlayCell.Hidden ≠ OverlayCell.Hidden
                    rw [hpq, hb1vis]
                    simp
                  · show (b.overlay.set (y * b.size + x) OverlayCell.Visible).getD
                        (q * b.size + p) OverlayCell.Hidden ≠ OverlayCell.Hidden
                    rw [getD_set_ne b.overlay (y * b.size + x) (q * b.size + p)
                      OverlayCell.Visible OverlayCell.Hidden (fun hh => hpq hh.symm)]
                    exact hnh
                · exact Or.inr hmem
            · show (b.overlay.set (y * b.size + x) OverlayCell.Visible).getD
                  (y * b.size + x) OverlayCell.Hidden ≠ OverlayCell.Hidden
              rw [hb1vis]
              simp
    refine ⟨hP, ?_⟩
    intro M
    induction M with
    | nil =>
      intro b L hm hlen hc hinv
      rw [revealAll_nil]
      simpa using hinv
    | cons a M ihM =>
      intro b L hm hlen hc hinv
      obtain ⟨a1, a2⟩ := a
      obtain ⟨ha1, ha2⟩ := hm (a1, a2) (List.mem_cons_self _ _)
      rw [revealAll_cons]
      obtain ⟨hs2, hc2, hl2⟩ := revealFuel_frame f b a1 a2
      have hstep := hP b a1 a2 (((a1, a2) :: M) ++ L) ha1 ha2 hlen hc hinv
      have hinv2 : RInv (revealFuel f b a1 a2) (M ++ L) := by
        intro i j hi hj hvis hemp p hp q hq
        rcases hstep.1 i j hi hj hvis hemp p hp q hq with hnh | hmem
        · exact Or.inl hnh
        · rcases List.mem_cons.mp hmem with heq | hmem2
          · left
            obtain ⟨hpe, hqe⟩ := Prod.mk.injEq .. ▸ heq
            subst hpe
            subst hqe
            rw [hs2]
            exact hstep.2
          · exact Or.inr hmem2
      exact ihM (revealFuel f b a1 a2) L
        (by
          intro pq hpq
          rw [hs2]
          exact hm pq (List.mem_cons_of_mem _ hpq))
        (by rw [hs2, hl2]; exact hlen)
        (by
          have := revealFuel_hiddenCount_le f b a1 a2
          omega)
        hinv2

theorem reveal_no_marked (b : Board) (x y : Nat)
    (hall : ∀ e ∈ b.overlay, e = OverlayCell.Hidden) (k : Nat) :
    (board_reveal b x y).overlay[k]? ≠ some OverlayCell.Marked := by
  intro hk
  rcases revealFuel_step (hiddenCount b.overlay + 1) b x y k with he | ⟨h1, h2⟩
  · rw [board_reveal_def] at hk
    rw [hk] at he
    have hlt : k < b.overlay.length := by
      by_contra hh
      rw [List.getElem?_eq_none (by omega)] at he
      exact absurd he.symm (by simp)
    rw [List.getElem?_eq_getElem hlt] at he
    have := hall b.overlay[k] (List.getElem_mem hlt)
    rw [this] at he
    exact absurd (Option.some.inj he.symm) (by simp)
  · rw [board_reveal_def] at hk
    rw [hk] at h1
    exact absurd (Option.some.inj h1) (by simp)

theorem reveal_complete (b : Board) (x y : Nat)
    (hx : x < b.size) (hy : y < b.size)
    (hall : ∀ e ∈ b.overlay, e = OverlayCell.Hidden)
    (hlen : b.size * b.size ≤ b.overlay.length) :
    ∀ {i j : Nat}, Reach b.size b.cells x y i j →
      (board_reveal b x y).overlay.getD (j * b.size + i) OverlayCell.Hidden
        = OverlayCell.Visible := by
  obtain ⟨hfs, hfc, hfl⟩ := revealFuel_frame (hiddenCount b.overlay + 1) b x y
  rw [← board_reveal_def b x y] at hfs hfc hfl
  have hinv0 : RInv b [] := by
    intro i j hi hj hvis _ p _ q _
    have hik : j * b.size + i < b.overlay.length :=
      Nat.lt_of_lt_of_le (idx_lt hi hj) hlen
    rw [getD_of_lt _ _ _ hik] at hvis
    have := hall _ (List.getElem_mem hik)
    rw [this] at hvis
    exact absurd hvis (by simp)
  have hmain := (reveal_inv (hiddenCount b.overlay + 1)).1 b x y []
    hx hy hlen (Nat.lt_succ_self _) hinv0
  rw [← board_reveal_def b x y] at hmain
  have hri : RInv (board_reveal b x y) [] := hmain.1
  -- any non-Hidden in-range entry of the revealed board is Visible
  have hnotm : ∀ i j : Nat, i < b.size → j < b.size →
      (board_reveal b x y).overlay.getD (j * b.size + i) OverlayCell.Hidden
          ≠ OverlayCell.Hidden →
      (board_reveal b x y).overlay.getD (j * b.size + i) OverlayCell.Hidden
          = OverlayCell.Visible := by
    intro i j hi hj hnh
    have hik : j * b.size + i < (board_reveal b x y).overlay.length := by
      rw [hfl]
      exact Nat.lt_of_lt_of_le (idx_lt hi hj) hlen
    cases hv : (board_reveal b x y).overlay.getD (j * b.size + i) OverlayCell.Hidden with
    | Hidden => exact absurd hv hnh
    | Visible => rfl
    | Marked =>
      have hm2 : (board_reveal b x y).overlay[j * b.size + i]? = some OverlayCell.Marked := by
        rw [getElem?_of_getD _ _ OverlayCell.Hidden hik, hv]
      exact absurd hm2 (reveal_no_marked b x y hall _)
  intro i j hr
  induction hr with
  | start =>
    have hnh := hmain.2
    exact hnotm x y hx hy hnh
  | step hr0 he hp hq ihr =>
    rename_i i0 j0 p0 q0
    obtain ⟨hi0, hj0⟩ := reach_lt hx hy hr0
    have hvis0 := ihr
    have hemp0 : (board_reveal b x y).cells.getD (j0 * (board_reveal b x y).size + i0) 0
        = CELL_EMPTY := by
      rw [hfs, hfc]
      exact he
    have hri0 := hri i0 j0 (by rw [hfs]; exact hi0) (by rw [hfs]; exact hj0)
      (by rw [hfs]; exact hvis0) hemp0 p0 (by rw [hfs]; exact hp) q0 (by rw [hfs]; exact hq)
    rcases hri0 with hnh | hmem
    · rw [hfs] at hnh
      exact hnotm p0 q0 (blockRange_lt hp) (blockRange_lt hq) hnh
    · exact absurd hmem (List.not_mem_nil _)

/-! The connected empty region through `(x, y)` and its numbered border,
    in the vocabulary of the specification. -/

/-- A chain of empty cells from the start cell `(x, y)` to `(i, j)`, each
    consecutive pair within one clipped 3x3 block: the connected zero-region
    of `(x, y)` under 8-connectivity. -/
inductive ZeroPath (s : Nat) (cells : List Nat) (x y : Nat) : Nat → Nat → Prop where
  | start : cells.getD (y * s + x) 0 = CELL_EMPTY → ZeroPath s cells x y x y
  | step {i j p q : Nat} : ZeroPath s cells x y i j →
      p ∈ blockRange s i → q ∈ blockRange s j →
      cells.getD (q * s + p) 0 = CELL_EMPTY →
      ZeroPath s cells x y p q

/-- A numbered (neither empty nor mine) cell adjacent to the connected
    zero-region of `(x, y)`. -/
def ZeroBorder (s : Nat) (cells : List Nat) (x y i j : Nat) : Prop :=
  cells.getD (j * s + i) 0 ≠ CELL_EMPTY ∧ cells.getD (j * s + i) 0 ≠ CELL_MINE ∧
    ∃ p q, ZeroPath s cells x y p q ∧ i ∈ blockRange s p ∧ j ∈ blockRange s q

theorem zeroPath_empty {s : Nat} {cells : List Nat} {x y i j : Nat}
    (h : ZeroPath s cells x y i j) : cells.getD (j * s + i) 0 = CELL_EMPTY := by
  cases h with
  | start h0 => exact h0
  | step _ _ _ h0 => exact h0

theorem zeroPath_reach {s : Nat} {cells : List Nat} {x y i j : Nat}
    (h : ZeroPath s cells x y i j) : Reach s cells x y i j := by
  induction h with
  | start h0 => exact Reach.start
  | step hz hp hq h0 ihz => exact Reach.step ihz (zeroPath_empty hz) hp hq

theorem reach_iff_zero {s : Nat} {cells : List Nat} {x y : Nat}
    (hx : x < s) (hy : y < s)
    (hstart : cells.getD (y * s + x) 0 = CELL_EMPTY)
    (hcons : ∀ i : Nat, i < s → ∀ j : Nat, j < s →
      cells.getD (j * s + i) 0 = CELL_EMPTY →
      ∀ p ∈ blockRange s i, ∀ q ∈ blockRange s j,
        cells.getD (q * s + p) 0 ≠ CELL_MINE) :
    ∀ i j : Nat, Reach s cells x y i j ↔
      (ZeroPath s cells x y i j ∨ ZeroBorder s cells x y i j) := by
  intro i j
  constructor
  · intro hr
    induction hr with
    | start => exact Or.inl (ZeroPath.start hstart)
    | step hr0 he hp hq ihr =>
      rename_i i0 j0 p0 q0
      have hzp : ZeroPath s cells x y i0 j0 := by
        rcases ihr with hz | hb
        · exact hz
        · exact absurd he hb.1
      by_cases hq0 : cells.getD (q0 * s + p0) 0 = CELL_EMPTY
      · exact Or.inl (ZeroPath.step hzp hp hq hq0)
      · obtain ⟨hi0, hj0⟩ := reach_lt hx hy hr0
        exact Or.inr ⟨hq0, hcons i0 hi0 j0 hj0 he p0 hp q0 hq, i0, j0, hzp, hp, hq⟩
  · intro hz
    rcases hz with hz | ⟨_, _, p, q, hzp, hp, hq⟩
    · exact zeroPath_reach hz
    · exact Reach.step (zeroPath_reach hzp) (zeroPath_empty hzp) hp hq

/-- C4: on a fully Hidden board whose empty cells have no mine neighbors (the
    data-model invariant), revealing an in-range empty cell makes Visible
    exactly the connected zero-region of that cell together with the numbered
    cells bordering it, leaves every other cell Hidden, and changes no cell
    value and not the size. -/
theorem C4_flood_fill (b : Board) (x y : Nat)
    (hx : x < b.size) (hy : y < b.size)
    (hall : ∀ e ∈ b.overlay, e = OverlayCell.Hidden)
    (hlen : b.size * b.size ≤ b.overlay.length)
    (hempty : b.cells.getD (y * b.size + x) 0 = CELL_EMPTY)
    (hcons : ∀ i : Nat, i < b.size → ∀ j : Nat, j < b.size →
      b.cells.getD (j * b.size + i) 0 = CELL_EMPTY →
      ∀ p ∈ blockRange b.size i, ∀ q ∈ blockRange b.size j,
        b.cells.getD (q * b.size + p) 0 ≠ CELL_MINE) :
    (board_reveal b x y).size = b.size ∧ (board_reveal b x y).cells = b.cells
    ∧ ∀ i j : Nat, i < b.size → j < b.size →
      ((board_reveal b x y).overlay.getD (j * b.size + i) OverlayCell.Hidden
          = OverlayCell.Visible ↔
        (ZeroPath b.size b.cells x y i j ∨ ZeroBorder b.size b.cells x y i j))
      ∧ (¬(ZeroPath b.size b.cells x y i j ∨ ZeroBorder b.size b.cells x y i j) →
        (board_reveal b x y).overlay.getD (j * b.size + i) OverlayCell.Hidden
          = OverlayCell.Hidden) := by
  obtain ⟨hfs, hfc, hfl⟩ := revealFuel_frame (hiddenCount b.overlay + 1) b x y
  rw [← board_reveal_def b x y] at hfs hfc hfl
  refine ⟨hfs, hfc, ?_⟩
  intro i j hi hj
  have hik : j * b.size + i < b.overlay.length := Nat.lt_of_lt_of_le (idx_lt hi hj) hlen
  have hborig : b.overlay[j * b.size + i]? = some OverlayCell.Hidden := by
    rw [List.getElem?_eq_getElem hik]
    rw [hall _ (List.getElem_mem hik)]
  have hiffz := reach_iff_zero hx hy hempty hcons i j
  have hfwd : (board_reveal b x y).overlay.getD (j * b.size + i) OverlayCell.Hidden
      = OverlayCell.Visible →
      (ZeroPath b.size b.cells x y i j ∨ ZeroBorder b.size b.cells x y i j) := by
    intro hvis
    have hfin : (board_reveal b x y).overlay[j * b.size + i]? = some OverlayCell.Visible := by
      rw [getElem?_of_getD _ _ OverlayCell.Hidden (by
        rw [hfl]; exact hik), hvis]
    have hne : (board_reveal b x y).overlay[j * b.size + i]? ≠ b.overlay[j * b.size + i]? := by
      rw [hfin, hborig]
      simp
    rw [board_reveal_def] at hne
    obtain ⟨i1, j1, hi1, hj1, hke, hr1⟩ :=
      revealFuel_sound (hiddenCount b.overlay + 1) b x y hx hy _ hne
    obtain ⟨hie, hje⟩ := idx_inj hi1 hi hke.symm
    rw [hie, hje] at hr1
    exact hiffz.mp hr1
  constructor
  · constructor
    · exact hfwd
    · intro hz
      exact reveal_complete b x y hx hy hall hlen (hiffz.mpr hz)
  · intro hnz
    rcases revealFuel_step (hiddenCount b.overlay + 1) b x y (j * b.size + i) with he | ⟨h1, _⟩
    · rw [← board_reveal_def b x y] at he
      rw [List.getD_eq_getElem?_getD, he, hborig]
      rfl
    · rw [← board_reveal_def b x y] at h1
      have hvis : (board_reveal b x y).overlay.getD (j * b.size + i) OverlayCell.Hidden
          = OverlayCell.Visible := by
        rw [List.getD_eq_getElem?_getD, h1]
        rfl
      exact absurd (hfwd hvis) hnz

/-- The 3-by-3 example board of the C4 witness: one mine in the far corner,
    every other cell numbered accordingly, overlay fully Hidden. -/
@[reducible] def c4Board : Board :=
  { size := 3
    cells := [0, 0, 0, 0, 1, 1, 0, 1, 255]
    overlay := List.replicate 9 OverlayCell.Hidden }

/-- Witness for C4: on `c4Board`, revealing the empty cell `(0, 0)`; the
    theorem is instantiated at the bordering numbered cell `(1, 1)`
    (flat index 4). -/
theorem C4_flood_fill_witness :
    (board_reveal c4Board 0 0).cells = [0, 0, 0, 0, 1, 1, 0, 1, 255]
    ∧ ((board_reveal c4Board 0 0).overlay.getD 4
          OverlayCell.Hidden = OverlayCell.Visible
        ↔ (ZeroPath 3 [0, 0, 0, 0, 1, 1, 0, 1, 255] 0 0 1 1
            ∨ ZeroBorder 3 [0, 0, 0, 0, 1, 1, 0, 1, 255] 0 0 1 1)) := by
  have h := C4_flood_fill c4Board 0 0
    (by decide) (by decide) (by decide) (by decide) (by decide) (by decide)
  exact ⟨h.2.1, (h.2.2 1 1 (by decide) (by decide)).1⟩

/-! Counting machinery for the initialization claims. -/

/-- The specification's neighbor set of `(x, y)`: in-range cells of the 3x3
    block centered on `(x, y)`, clipped to the grid, center excluded. -/
def neighborsFinset (s x y : Nat) : Finset (Nat × Nat) :=
  (Finset.range s ×ˢ Finset.range s).filter
    (fun p => p ≠ (x, y) ∧ x ≤ p.1 + 1 ∧ p.1 ≤ x + 1 ∧ y ≤ p.2 + 1 ∧ p.2 ≤ y + 1)

/-- Specification-side neighbor-mine count: the number of mine cells among
    the at-most-8 neighbors of `(x, y)` in the clipped 3x3 block. -/
def specNeighborMineCount (cells : List Nat) (s x y : Nat) : Nat :=
  ((neighborsFinset s x y).filter
    (fun p => cells.getD (p.2 * s + p.1) 0 = CELL_MINE)).card

theorem foldl_count_aux {P Q : Nat → Prop} [DecidablePred P] [DecidablePred Q] :
    ∀ (l : List Nat) (c : Nat),
      l.foldl (fun c2 i => if P i then c2 else if Q i then c2 + 1 else c2) c
        = c + l.countP (fun i => decide (¬ P i ∧ Q i))
  | [], c => by simp
  | a :: l, c => by
    rw [List.foldl_cons, List.countP_cons]
    by_cases hP : P a
    · rw [if_pos hP, foldl_count_aux l c]
      have hd : (decide (¬ P a ∧ Q a)) = false := by simp [hP]
      rw [hd]
      simp
    · rw [if_neg hP]
      by_cases hQ : Q a
      · rw [if_pos hQ, foldl_count_aux l (c + 1)]
        have hd : (decide (¬ P a ∧ Q a)) = true := by simp [hP, hQ]
        rw [hd]
        simp
        omega
      · rw [if_neg hQ, foldl_count_aux l c]
        have hd : (decide (¬ P a ∧ Q a)) = false := by simp [hQ]
        rw [hd]
        simp

theorem foldl_ext_aux {α β : Type _} (f g : β → α → β) (h : ∀ acc a, f acc a = g acc a) :
    ∀ (l : List α) (init : β), l.foldl f init = l.foldl g init
  | [], _ => rfl
  | a :: l, init => by
    rw [List.foldl_cons, List.foldl_cons, h, foldl_ext_aux f g h l]

theorem foldl_add_aux (h : Nat → Nat) : ∀ (l : List Nat) (c : Nat),
    l.foldl (fun c2 j => c2 + h j) c = c + (l.map h).sum
  | [], c => by simp
  | a :: l, c => by
    rw [List.foldl_cons, foldl_add_aux h l, List.map_cons, List.sum_cons]
    omega

theorem countP_prodPairs (g : Nat × Nat → Bool) :
    ∀ js is : List Nat,
      (prodPairs js is).countP g
        = (js.map (fun j => is.countP (fun i => g (i, j)))).sum
  | [], _ => rfl
  | j :: js, is => by
    show ((is.map fun i => (i, j)) ++ prodPairs js is).countP g = _
    rw [List.countP_append, List.countP_map, List.map_cons, List.sum_cons,
      countP_prodPairs g js is]
    rfl

theorem prodPairs_length : ∀ js is : List Nat,
    (prodPairs js is).length = js.length * is.length
  | [], _ => by simp [prodPairs]
  | j :: js, is => by
    show ((is.map fun i => (i, j)) ++ prodPairs js is).length = _
    rw [List.length_append, List.length_map, prodPairs_length js is,
      List.length_cons, Nat.succ_mul]
    omega

theorem blockRange_nodup (s c : Nat) : (blockRange s c).Nodup := by
  unfold blockRange
  exact List.nodup_range' _ _

theorem prodPairs_nodup {js is : List Nat} (hjs : js.Nodup) (his : is.Nodup) :
    (prodPairs js is).Nodup := by
  induction js with
  | nil => exact List.nodup_nil
  | cons j js ih =>
    obtain ⟨hj, hjs2⟩ := List.nodup_cons.mp hjs
    show ((is.map fun i => (i, j)) ++ prodPairs js is).Nodup
    rw [List.nodup_append]
    refine ⟨List.Nodup.map ?_ his, ih hjs2, ?_⟩
    · intro a b hab
      exact (Prod.mk.injEq .. ▸ hab).1
    · intro p hp1 hp2
      obtain ⟨i, _, rfl⟩ := List.mem_map.mp hp1
      exact hj (mem_prodPairs.mp hp2).1

theorem countNeighborMines_eq_countP (cells : List Nat) (s x y : Nat) :
    countNeighborMines cells s x y
      = (prodPairs (blockRange s y) (blockRange s x)).countP
          (fun p => decide (¬(p.1 = x ∧ p.2 = y)
            ∧ cells.getD (p.2 * s + p.1) 0 = CELL_MINE)) := by
  unfold countNeighborMines
  rw [countP_prodPairs]
  have hinner : ∀ (cnt j : Nat),
      (blockRange s x).foldl
        (fun cnt2 i =>
          if i = x ∧ j = y then cnt2
          else if cells.getD (j * s + i) 0 = CELL_MINE then cnt2 + 1
          else cnt2) cnt
      = cnt + (blockRange s x).countP
          (fun i => decide (¬(i = x ∧ j = y)
            ∧ cells.getD (j * s + i) 0 = CELL_MINE)) :=
    fun cnt j => foldl_count_aux (blockRange s x) cnt
  rw [foldl_ext_aux _
    (fun cnt j => cnt + (blockRange s x).countP
      (fun i => decide (¬(i = x ∧ j = y) ∧ cells.getD (j * s + i) 0 = CELL_MINE)))
    hinner (blockRange s y) 0]
  rw [foldl_add_aux (fun j => (blockRange s x).countP
      (fun i => decide (¬(i = x ∧ j = y) ∧ cells.getD (j * s + i) 0 = CELL_MINE)))
    (blockRange s y) 0]
  rw [Nat.zero_add]

theorem countNeighborMines_eq_spec (cells : List Nat) {s x y : Nat}
    (hx : x < s) (hy : y < s) :
    countNeighborMines cells s x y = specNeighborMineCount cells s x y := by
  rw [countNeighborMines_eq_countP, List.countP_eq_length_filter]
  have hnd : (prodPairs (blockRange s y) (blockRange s x)).Nodup :=
    prodPairs_nodup (blockRange_nodup s y) (blockRange_nodup s x)
  rw [← List.toFinset_card_of_nodup (hnd.filter _)]
  unfold specNeighborMineCount
  congr 1
  ext p
  obtain ⟨i, j⟩ := p
  rw [List.mem_toFinset, List.mem_filter, Finset.mem_filter]
  unfold neighborsFinset
  rw [Finset.mem_filter, Finset.mem_product, Finset.mem_range, Finset.mem_range]
  rw [mem_prodPairs]
  simp only [decide_eq_true_eq]
  rw [mem_blockRange, mem_blockRange]
  constructor
  · rintro ⟨⟨hjm, him⟩, hnc, hm⟩
    refine ⟨⟨⟨by omega, by omega⟩, ?_, by omega, by omega, by omega, by omega⟩, hm⟩
    intro he
    rw [Prod.mk.injEq] at he
    exact hnc he
  · rintro ⟨⟨⟨hi, hj⟩, hne, h1, h2, h3, h4⟩, hm⟩
    refine ⟨⟨by omega, by omega⟩, ?_, hm⟩
    intro he
    exact hne (by rw [he.1, he.2])

theorem specNeighborMineCount_le (cells : List Nat) {s x y : Nat}
    (hx : x < s) (hy : y < s) :
    specNeighborMineCount cells s x y ≤ 8 := by
  unfold specNeighborMineCount
  have h1 : ((neighborsFinset s x y).filter
      (fun p => cells.getD (p.2 * s + p.1) 0 = CELL_MINE)).card
      ≤ (neighborsFinset s x y).card := Finset.card_filter_le _ _
  have hsub : neighborsFinset s x y
      ⊆ ((Finset.Ico (x - 1) (x + 2)) ×ˢ (Finset.Ico (y - 1) (y + 2))).erase (x, y) := by
    intro p hp
    obtain ⟨i, j⟩ := p
    unfold neighborsFinset at hp
    rw [Finset.mem_filter, Finset.mem_product, Finset.mem_range, Finset.mem_range] at hp
    rw [Finset.mem_erase, Finset.mem_product, Finset.mem_Ico, Finset.mem_Ico]
    obtain ⟨⟨hi, hj⟩, hne, h1, h2, h3, h4⟩ := hp
    exact ⟨hne, ⟨by omega, by omega⟩, by omega, by omega⟩
  have h2 := Finset.card_le_card hsub
  have hm : (x, y) ∈ (Finset.Ico (x - 1) (x + 2)) ×ˢ (Finset.Ico (y - 1) (y + 2)) := by
    rw [Finset.mem_product, Finset.mem_Ico, Finset.mem_Ico]
    exact ⟨⟨by omega, by omega⟩, by omega, by omega⟩
  rw [Finset.card_erase_of_mem hm, Finset.card_product, Nat.card_Ico, Nat.card_Ico] at h2
  have ha : x + 2 - (x - 1) ≤ 3 := by omega
  have hb : y + 2 - (y - 1) ≤ 3 := by omega
  have hab : (x + 2 - (x - 1)) * (y + 2 - (y - 1)) ≤ 9 := Nat.mul_le_mul ha hb
  omega

theorem countNeighborMines_le_nine (cells : List Nat) (s x y : Nat) :
    countNeighborMines cells s x y ≤ 9 := by
  rw [countNeighborMines_eq_countP]
  have h1 := List.countP_le_length
    (p := fun p : Nat × Nat => decide (¬(p.1 = x ∧ p.2 = y)
      ∧ cells.getD (p.2 * s + p.1) 0 = CELL_MINE))
    (l := prodPairs (blockRange s y) (blockRange s x))
  have h2 : (prodPairs (blockRange s y) (blockRange s x)).length ≤ 9 := by
    rw [prodPairs_length]
    exact Nat.le_trans
      (Nat.mul_le_mul (length_blockRange_le s y) (length_blockRange_le s x)) (by omega)
  omega

theorem countNeighborMines_congr {cells1 cells2 : List Nat} (s x y : Nat)
    (h : ∀ k : Nat, cells1.getD k 0 = CELL_MINE ↔ cells2.getD k 0 = CELL_MINE) :
    countNeighborMines cells1 s x y = countNeighborMines cells2 s x y := by
  rw [countNeighborMines_eq_countP, countNeighborMines_eq_countP]
  apply List.countP_congr
  intro p _
  simp only [decide_eq_true_eq]
  exact and_congr_right fun _ => h (p.2 * s + p.1)

theorem specNeighborMineCount_congr {cells1 cells2 : List Nat} (s x y : Nat)
    (h : ∀ k : Nat, cells1.getD k 0 = CELL_MINE ↔ cells2.getD k 0 = CELL_MINE) :
    specNeighborMineCount cells1 s x y = specNeighborMineCount cells2 s x y := by
  unfold specNeighborMineCount
  congr 1
  exact Finset.filter_congr fun p _ => h (p.2 * s + p.1)

/-! Analysis of the in-place numbering pass of `board_init`. -/

/-- One step of the numbering pass at cell `(x, y)`. -/
def numberStep (s : Nat) (cs : List Nat) (x y : Nat) : List Nat :=
  if cs.getD (y * s + x) 0 ≠ CELL_MINE then
    cs.set (y * s + x) (countNeighborMines cs s x y)
  else cs

theorem computeNumbers_eq_foldl (s : Nat) (cells : List Nat) :
    computeNumbers s cells
      = (prodPairs (List.range s) (List.range s)).foldl
          (fun cs p => numberStep s cs p.1 p.2) cells :=
  (foldl_prodPairs (fun cs i j => numberStep s cs i j)
    (List.range s) (List.range s) cells).symm

theorem foldl_numberStep_length (s : Nat) : ∀ (ps : List (Nat × Nat)) (cs : List Nat),
    (ps.foldl (fun cs p => numberStep s cs p.1 p.2) cs).length = cs.length
  | [], _ => rfl
  | p :: ps, cs => by
    rw [List.foldl_cons, foldl_numberStep_length s ps (numberStep s cs p.1 p.2)]
    unfold numberStep
    by_cases h : cs.getD (p.2 * s + p.1) 0 ≠ CELL_MINE
    · rw [if_pos h]
      exact List.length_set ..
    · rw [if_neg h]

theorem numberStep_mine (s : Nat) (cs : List Nat) (x y k : Nat) :
    (numberStep s cs x y).getD k 0 = CELL_MINE ↔ cs.getD k 0 = CELL_MINE := by
  unfold numberStep
  by_cases h : cs.getD (y * s + x) 0 ≠ CELL_MINE
  · rw [if_pos h]
    by_cases hk : y * s + x = k
    · subst hk
      by_cases hlt : y * s + x < cs.length
      · rw [getD_set_self _ _ _ _ hlt]
        have hle := countNeighborMines_le_nine cs s x y
        have hcm : CELL_MINE = 255 := rfl
        constructor
        · intro hc
          omega
        · intro hc
          exact absurd hc h
      · have h1 : (cs.set (y * s + x) (countNeighborMines cs s x y)).getD (y * s + x) 0
            = 0 := by
          rw [List.getD_eq_getElem?_getD,
            List.getElem?_eq_none (by rw [List.length_set]; omega)]
          rfl
        have h2 : cs.getD (y * s + x) 0 = 0 := by
          rw [List.getD_eq_getElem?_getD, List.getElem?_eq_none (by omega)]
          rfl
        rw [h1, h2]
    · rw [getD_set_ne _ _ _ _ _ hk]
  · rw [if_neg h]

theorem foldl_numberStep_mine (s : Nat) : ∀ (ps : List (Nat × Nat)) (cs : List Nat) (k : Nat),
    (ps.foldl (fun cs p => numberStep s cs p.1 p.2) cs).getD k 0 = CELL_MINE
      ↔ cs.getD k 0 = CELL_MINE
  | [], _, _ => Iff.rfl
  | p :: ps, cs, k => by
    rw [List.foldl_cons]
    exact (foldl_numberStep_mine s ps (numberStep s cs p.1 p.2) k).trans
      (numberStep_mine s cs p.1 p.2 k)

theorem foldl_numberStep_frame (s : Nat) : ∀ (ps : List (Nat × Nat)) (cs : List Nat) (k : Nat),
    (∀ p ∈ ps, p.2 * s + p.1 ≠ k) →
    (ps.foldl (fun cs p => numberStep s cs p.1 p.2) cs).getD k 0 = cs.getD k 0
  | [], _, _, _ => rfl
  | p :: ps, cs, k, h => by
    rw [List.foldl_cons,
      foldl_numberStep_frame s ps _ k (fun q hq => h q (List.mem_cons_of_mem _ hq))]
    unfold numberStep
    by_cases hm : cs.getD (p.2 * s + p.1) 0 ≠ CELL_MINE
    · rw [if_pos hm, getD_set_ne _ _ _ _ _ (h p (List.mem_cons_self ..))]
    · rw [if_neg hm]

theorem map_idx_prodPairs (s : Nat) : ∀ t : Nat,
    (prodPairs (List.range t) (List.range s)).map (fun p => p.2 * s + p.1)
      = List.range (t * s)
  | 0 => by simp [prodPairs]
  | t + 1 => by
    have hsingle : prodPairs [t] (List.range s) = (List.range s).map fun i => (i, t) := by
      show ((List.range s).map fun i => (i, t)) ++ prodPairs [] (List.range s) = _
      rw [show prodPairs [] (List.range s) = [] from rfl, List.append_nil]
    rw [List.range_succ, prodPairs_append, List.map_append, map_idx_prodPairs s t,
      hsingle, List.map_map, show (t + 1) * s = t * s + s from by ring, List.range_add]
    rfl

theorem computeNumbers_getD (s : Nat) (cells : List Nat) {x y : Nat}
    (hx : x < s) (hy : y < s) (hn : y * s + x < cells.length) :
    (computeNumbers s cells).getD (y * s + x) 0
      = if cells.getD (y * s + x) 0 = CELL_MINE then CELL_MINE
        else countNeighborMines cells s x y := by
  rw [computeNumbers_eq_foldl]
  have hmem : (x, y) ∈ prodPairs (List.range s) (List.range s) :=
    mem_prodPairs.mpr ⟨List.mem_range.mpr hy, List.mem_range.mpr hx⟩
  obtain ⟨l1, l2, hsplit⟩ := List.append_of_mem hmem
  have hmapnd : ((prodPairs (List.range s) (List.range s)).map
      (fun p => p.2 * s + p.1)).Nodup := by
    rw [map_idx_prodPairs]
    exact List.nodup_range _
  rw [hsplit, List.map_append, List.map_cons, List.nodup_append] at hmapnd
  obtain ⟨hnd1, hnd2, hdisj⟩ := hmapnd
  have hno1 : ∀ p ∈ l1, p.2 * s + p.1 ≠ y * s + x := by
    intro p hp he
    apply hdisj (List.mem_map_of_mem _ hp)
    rw [he]
    exact List.mem_cons_self ..
  have hno2 : ∀ p ∈ l2, p.2 * s + p.1 ≠ y * s + x := by
    intro p hp he
    exact (List.nodup_cons.mp hnd2).1 (he ▸ List.mem_map_of_mem _ hp)
  rw [hsplit, List.foldl_append, List.foldl_cons]
  have hcs1k := foldl_numberStep_frame s l1 cells (y * s + x) hno1
  have hlen1 := foldl_numberStep_length s l1 cells
  set CS := l1.foldl (fun cs p => numberStep s cs p.1 p.2) cells with hCS
  show (l2.foldl (fun cs p => numberStep s cs p.1 p.2)
      (numberStep s CS x y)).getD (y * s + x) 0 = _
  rw [foldl_numberStep_frame s l2 _ (y * s + x) hno2]
  by_cases hm : cells.getD (y * s + x) 0 = CELL_MINE
  · have hm1 : CS.getD (y * s + x) 0 = CELL_MINE := by
      rw [hcs1k]
      exact hm
    have hstep : numberStep s CS x y = CS := by
      show (if CS.getD (y * s + x) 0 ≠ CELL_MINE then
        CS.set (y * s + x) (countNeighborMines CS s x y) else CS) = CS
      rw [if_neg (fun hc => hc hm1)]
    rw [hstep, hm1, if_pos hm]
  · have hm1 : ¬ CS.getD (y * s + x) 0 = CELL_MINE := by
      rw [hcs1k]
      exact hm
    have hstep : numberStep s CS x y
        = CS.set (y * s + x) (countNeighborMines CS s x y) := by
      show (if CS.getD (y * s + x) 0 ≠ CELL_MINE then
        CS.set (y * s + x) (countNeighborMines CS s x y) else CS) = _
      rw [if_pos hm1]
    rw [hstep, getD_set_self _ _ _ _ (by rw [hCS, hlen1]; exact hn), if_neg hm]
    exact countNeighborMines_congr s x y
      (fun k => foldl_numberStep_mine s l1 cells k)

theorem computeNumbers_mine (s : Nat) (cells : List Nat) (k : Nat) :
    (computeNumbers s cells).getD k 0 = CELL_MINE ↔ cells.getD k 0 = CELL_MINE := by
  rw [computeNumbers_eq_foldl]
  exact foldl_numberStep_mine s _ cells k

/-! The inside-out Fisher-Yates shuffle: after `t` iterations the first `t`
    positions hold pairwise distinct values below `t` (hence a permutation of
    `0..t-1`), and every later position still holds the initial 0. -/

theorem getD_replicate_zero (n k : Nat) : (List.replicate n (0 : Nat)).getD k 0 = 0 := by
  by_cases h : k < n
  · rw [getD_of_lt _ _ _ (by rw [List.length_replicate]; exact h)]
    exact List.getElem_replicate ..
  · rw [List.getD_eq_getElem?_getD,
      List.getElem?_eq_none (by rw [List.length_replicate]; omega)]
    rfl

/-- The shuffle loop after `t` iterations. -/
def shuffleFold (rand : Nat → Nat) (t : Nat) : List Nat :=
  (List.range t).foldl
    (fun s i =>
      let j := rand i % (i + 1)
      let s1 := if j ≠ i then s.set i (s.getD j 0) else s
      s1.set j i)
    (List.replicate MAX_BOARD_AREA 0)

theorem shuffleFold_succ (rand : Nat → Nat) (t : Nat) :
    shuffleFold rand (t + 1)
      = (if rand t % (t + 1) ≠ t
          then (shuffleFold rand t).set t ((shuffleFold rand t).getD (rand t % (t + 1)) 0)
          else shuffleFold rand t).set (rand t % (t + 1)) t := by
  unfold shuffleFold
  rw [List.range_succ, List.foldl_append]
  rfl

theorem shuffleFold_invariant (rand : Nat → Nat) : ∀ t : Nat, t ≤ MAX_BOARD_AREA →
    (shuffleFold rand t).length = MAX_BOARD_AREA
    ∧ (∀ k, k < t → (shuffleFold rand t).getD k 0 < t)
    ∧ (∀ k1, k1 < t → ∀ k2, k2 < t → k1 ≠ k2 →
        (shuffleFold rand t).getD k1 0 ≠ (shuffleFold rand t).getD k2 0)
    ∧ (∀ k, t ≤ k → (shuffleFold rand t).getD k 0 = 0) := by
  intro t
  induction t with
  | zero =>
    intro _
    refine ⟨List.length_replicate .., ?_, ?_, ?_⟩
    · intro k hk
      omega
    · intro k1 hk1
      omega
    · intro k _
      exact getD_replicate_zero ..
  | succ t ih =>
    intro ht
    obtain ⟨hlen, hbound, hinj, hzero⟩ := ih (by omega)
    have hMA : MAX_BOARD_AREA = 676 := rfl
    have ht676 : t < MAX_BOARD_AREA := by omega
    have hj : rand t % (t + 1) ≤ t := by
      have := Nat.mod_lt (rand t) (show 0 < t + 1 by omega)
      omega
    rw [shuffleFold_succ]
    by_cases hjt : rand t % (t + 1) ≠ t
    · rw [if_pos hjt]
      have hjlt : rand t % (t + 1) < t := by omega
      have hget : ∀ k : Nat,
          (((shuffleFold rand t).set t
              ((shuffleFold rand t).getD (rand t % (t + 1)) 0)).set (rand t % (t + 1)) t).getD
            k 0
          = if k = rand t % (t + 1) then t
            else if k = t then (shuffleFold rand t).getD (rand t % (t + 1)) 0
            else (shuffleFold rand t).getD k 0 := by
        intro k
        by_cases hkj : k = rand t % (t + 1)
        · subst hkj
          rw [if_pos rfl]
          exact getD_set_self _ _ _ _ (by rw [List.length_set]; omega)
        · rw [if_neg hkj, getD_set_ne _ _ _ _ _ (fun he => hkj he.symm)]
          by_cases hkt : k = t
          · subst hkt
            rw [if_pos rfl]
            exact getD_set_self _ _ _ _ (by omega)
          · rw [if_neg hkt, getD_set_ne _ _ _ _ _ (fun he => hkt he.symm)]
      refine ⟨by rw [List.length_set, List.length_set]; exact hlen, ?_, ?_, ?_⟩
      · intro k hk
        rw [hget]
        by_cases h1 : k = rand t % (t + 1)
        · rw [if_pos h1]
          omega
        · rw [if_neg h1]
          by_cases h2 : k = t
          · rw [if_pos h2]
            have := hbound (rand t % (t + 1)) hjlt
            omega
          · rw [if_neg h2]
            have := hbound k (by omega)
            omega
      · intro k1 hk1 k2 hk2 hne
        rw [hget, hget]
        by_cases h1 : k1 = rand t % (t + 1)
        · rw [if_pos h1]
          by_cases h2 : k2 = rand t % (t + 1)
          · exact absurd (h1.trans h2.symm) hne
          · rw [if_neg h2]
            by_cases h2t : k2 = t
            · rw [if_pos h2t]
              have := hbound (rand t % (t + 1)) hjlt
              omega
            · rw [if_neg h2t]
              have := hbound k2 (by omega)
              omega
        · rw [if_neg h1]
          by_cases h1t : k1 = t
          · rw [if_pos h1t]
            by_cases h2 : k2 = rand t % (t + 1)
            · rw [if_pos h2]
              have := hbound (rand t % (t + 1)) hjlt
              omega
            · rw [if_neg h2]
              by_cases h2t : k2 = t
              · exact absurd (h1t.trans h2t.symm) hne
              · rw [if_neg h2t]
                exact hinj (rand t % (t + 1)) hjlt k2 (by omega) (by omega)
          · rw [if_neg h1t]
            by_cases h2 : k2 = rand t % (t + 1)
            · rw [if_pos h2]
              have := hbound k1 (by omega)
              omega
            · rw [if_neg h2]
              by_cases h2t : k2 = t
              · rw [if_pos h2t]
                exact hinj k1 (by omega) (rand t % (t + 1)) hjlt (by omega)
              · rw [if_neg h2t]
                exact hinj k1 (by omega) k2 (by omega) hne
      · intro k hk
        rw [hget, if_neg (by omega), if_neg (by omega)]
        exact hzero k (by omega)
    · rw [if_neg hjt]
      have hjeq : rand t % (t + 1) = t := not_not.mp hjt
      rw [hjeq]
      have hget : ∀ k : Nat, ((shuffleFold rand t).set t t).getD k 0
          = if k = t then t else (shuffleFold rand t).getD k 0 := by
        intro k
        by_cases hkt : k = t
        · subst hkt
          rw [if_pos rfl]
          exact getD_set_self _ _ _ _ (by omega)
        · rw [if_neg hkt, getD_set_ne _ _ _ _ _ (fun he => hkt he.symm)]
      refine ⟨by rw [List.length_set]; exact hlen, ?_, ?_, ?_⟩
      · intro k hk
        rw [hget]
        by_cases h1 : k = t
        · rw [if_pos h1]
          omega
        · rw [if_neg h1]
          have := hbound k (by omega)
          omega
      · intro k1 hk1 k2 hk2 hne
        rw [hget, hget]
        by_cases h1 : k1 = t
        · rw [if_pos h1]
          by_cases h2 : k2 = t
          · exact absurd (h1.trans h2.symm) hne
          · rw [if_neg h2]
            have := hbound k2 (by omega)
            omega
        · rw [if_neg h1]
          by_cases h2 : k2 = t
          · rw [if_pos h2]
            have := hbound k1 (by omega)
            omega
          · rw [if_neg h2]
            exact hinj k1 (by omega) k2 (by omega) hne
      · intro k hk
        rw [hget, if_neg (by omega)]
        exact hzero k (by omega)

theorem shuffledIndices_spec (rand : Nat → Nat) (area : Nat) (ha : area ≤ MAX_BOARD_AREA) :
    (shuffledIndices rand area).length = MAX_BOARD_AREA
    ∧ (∀ k, k < area → (shuffledIndices rand area).getD k 0 < area)
    ∧ (∀ k1, k1 < area → ∀ k2, k2 < area → k1 ≠ k2 →
        (shuffledIndices rand area).getD k1 0 ≠ (shuffledIndices rand area).getD k2 0)
    ∧ (∀ k, area ≤ k → (shuffledIndices rand area).getD k 0 = 0) := by
  have he : shuffledIndices rand area = shuffleFold rand (min area MAX_BOARD_AREA) := rfl
  rw [he, Nat.min_eq_left ha]
  exact shuffleFold_invariant rand area ha

theorem shuffled_surj (rand : Nat → Nat) (area : Nat) (ha : area ≤ MAX_BOARD_AREA) :
    ∀ k, k < area → ∃ i, i < area ∧ (shuffledIndices rand area).getD i 0 = k := by
  obtain ⟨hlen, hbound, hinj, hzero⟩ := shuffledIndices_spec rand area ha
  have hnd : ((List.range area).map
      (fun i => (shuffledIndices rand area).getD i 0)).Nodup := by
    apply List.Nodup.map_on ?_ (List.nodup_range area)
    intro a ha2 b hb2 hfe
    rw [List.mem_range] at ha2 hb2
    by_contra hne
    exact hinj a ha2 b hb2 hne hfe
  have hcard : ((List.range area).map
      (fun i => (shuffledIndices rand area).getD i 0)).toFinset = Finset.range area := by
    apply Finset.eq_of_subset_of_card_le
    · intro a hha
      rw [List.mem_toFinset] at hha
      obtain ⟨i, hi, rfl⟩ := List.mem_map.mp hha
      rw [Finset.mem_range]
      exact hbound i (List.mem_range.mp hi)
    · rw [List.toFinset_card_of_nodup hnd, List.length_map, List.length_range,
        Finset.card_range]
  intro k hk
  have hmem : k ∈ ((List.range area).map
      (fun i => (shuffledIndices rand area).getD i 0)).toFinset := by
    rw [hcard, Finset.mem_range]
    exact hk
  rw [List.mem_toFinset] at hmem
  obtain ⟨i, hi, he⟩ := List.mem_map.mp hmem
  exact ⟨i, List.mem_range.mp hi, he⟩

/-! Mine placement and the initialization claims. -/

theorem placeMines_foldl_getD (shuffled : List Nat) :
    ∀ (ps : List Nat) (cs : List Nat) (k : Nat),
      (ps.foldl (fun c i => c.set (shuffled.getD i 0) CELL_MINE) cs).getD k 0
        = if k < cs.length ∧ ∃ i ∈ ps, shuffled.getD i 0 = k then CELL_MINE
          else cs.getD k 0
  | [], cs, k => by simp
  | a :: ps, cs, k => by
    rw [List.foldl_cons, placeMines_foldl_getD shuffled ps _ k, List.length_set]
    by_cases hk : k < cs.length
    · by_cases hex : ∃ i ∈ ps, shuffled.getD i 0 = k
      · have hex2 : ∃ i ∈ a :: ps, shuffled.getD i 0 = k := by
          obtain ⟨i, hi, he⟩ := hex
          exact ⟨i, List.mem_cons_of_mem a hi, he⟩
        rw [if_pos ⟨hk, hex⟩, if_pos ⟨hk, hex2⟩]
      · rw [if_neg (fun hc => hex hc.2)]
        by_cases hak : shuffled.getD a 0 = k
        · rw [hak, getD_set_self _ _ _ _ hk,
            if_pos ⟨hk, a, List.mem_cons_self .., hak⟩]
        · rw [getD_set_ne _ _ _ _ _ hak]
          rw [if_neg ?_]
          rintro ⟨_, i, hi, he⟩
          rcases List.mem_cons.mp hi with heq | hi2
          · exact hak (heq ▸ he)
          · exact hex ⟨i, hi2, he⟩
    · rw [if_neg (fun hc => hk hc.1), if_neg (fun hc => hk hc.1)]
      rw [List.getD_eq_getElem?_getD,
        List.getElem?_eq_none (by rw [List.length_set]; omega)]
      rw [List.getD_eq_getElem?_getD (l := cs), List.getElem?_eq_none (by omega)]

theorem placeMines_getD (shuffled : List Nat) (m k : Nat) :
    (placeMines (List.replicate MAX_BOARD_AREA 0) shuffled m).getD k 0
      = if k < MAX_BOARD_AREA ∧ ∃ i ∈ List.range m, shuffled.getD i 0 = k
        then CELL_MINE else 0 := by
  unfold placeMines
  rw [placeMines_foldl_getD shuffled (List.range m) _ k, List.length_replicate,
    getD_replicate_zero]

theorem placeMines_length (shuffled : List Nat) : ∀ (ps : List Nat) (cs : List Nat),
    (ps.foldl (fun c i => c.set (shuffled.getD i 0) CELL_MINE) cs).length = cs.length
  | [], _ => rfl
  | a :: ps, cs => by
    rw [List.foldl_cons, placeMines_length shuffled ps _, List.length_set]

theorem placeMines_len (cs shuffled : List Nat) (m : Nat) :
    (placeMines cs shuffled m).length = cs.length :=
  placeMines_length shuffled (List.range m) cs

theorem countP_mem_eq_length {S : List Nat} {n : Nat} (hnd : S.Nodup)
    (hsub : ∀ a ∈ S, a < n) :
    (List.range n).countP (fun k => decide (k ∈ S)) = S.length := by
  rw [List.countP_eq_length_filter]
  have hfnd : ((List.range n).filter (fun k => decide (k ∈ S))).Nodup :=
    (List.nodup_range n).filter _
  rw [← List.toFinset_card_of_nodup hfnd, ← List.toFinset_card_of_nodup hnd]
  congr 1
  ext a
  rw [List.mem_toFinset, List.mem_toFinset, List.mem_filter, List.mem_range]
  simp only [decide_eq_true_eq]
  constructor
  · exact fun h => h.2
  · exact fun h => ⟨hsub a h, h⟩

/-- The number of mine cells within the `size * size` board cells. -/
def countMineCells (b : Board) : Nat :=
  (List.range (b.size * b.size)).countP (fun n => b.cells.getD n 0 == CELL_MINE)

/-- C2: after `board_init size num_mines` (for any rand stream and any
    `num_mines`, clamping included), exactly `min num_mines (size * size)`
    board cells hold the mine sentinel, and every overlay entry is Hidden. -/
theorem C2_init_mines (rand : Nat → Nat) (size num_mines : Nat)
    (h1 : 1 ≤ size) (h2 : size ≤ MAX_BOARD_SIZE) :
    countMineCells (board_init rand size num_mines) = min num_mines (size * size)
    ∧ (board_init rand size num_mines).overlay
        = List.replicate MAX_BOARD_AREA OverlayCell.Hidden := by
  refine ⟨?_, rfl⟩
  have hMS : MAX_BOARD_SIZE = 26 := rfl
  have hMA : MAX_BOARD_AREA = 676 := rfl
  have h226 : size ≤ 26 := by omega
  have harea : size * size ≤ MAX_BOARD_AREA := by
    have := Nat.mul_le_mul h226 h226
    omega
  obtain ⟨hlen, hbound, hinj, hzero⟩ := shuffledIndices_spec rand (size * size) harea
  unfold countMineCells
  rw [show (board_init rand size num_mines).size = size from rfl]
  rw [show (board_init rand size num_mines).cells
    = computeNumbers size (placeMines (List.replicate MAX_BOARD_AREA 0)
        (shuffledIndices rand (size * size)) num_mines) from rfl]
  have e1 : ∀ n ∈ List.range (size * size),
      ((computeNumbers size (placeMines (List.replicate MAX_BOARD_AREA 0)
          (shuffledIndices rand (size * size)) num_mines)).getD n 0 == CELL_MINE) = true
      ↔ ((placeMines (List.replicate MAX_BOARD_AREA 0)
          (shuffledIndices rand (size * size)) num_mines).getD n 0 == CELL_MINE) = true := by
    intro n _
    rw [beq_iff_eq, beq_iff_eq]
    exact computeNumbers_mine size _ n
  rw [List.countP_congr e1]
  have e2 : ∀ n ∈ List.range (size * size),
      ((placeMines (List.replicate MAX_BOARD_AREA 0)
          (shuffledIndices rand (size * size)) num_mines).getD n 0 == CELL_MINE) = true
      ↔ (decide (n ∈ (List.range (min num_mines (size * size))).map
          (fun i => (shuffledIndices rand (size * size)).getD i 0))) = true := by
    intro n hn
    rw [List.mem_range] at hn
    rw [beq_iff_eq, placeMines_getD, decide_eq_true_eq]
    constructor
    · intro hc
      by_cases hcond : n < MAX_BOARD_AREA ∧ ∃ i ∈ List.range num_mines,
          (shuffledIndices rand (size * size)).getD i 0 = n
      · obtain ⟨hn676, i, hi, he⟩ := hcond
        rw [List.mem_range] at hi
        rw [List.mem_map]
        by_cases hia : i < size * size
        · exact ⟨i, List.mem_range.mpr (by omega), he⟩
        · have hz : (shuffledIndices rand (size * size)).getD i 0 = 0 :=
            hzero i (by omega)
          rw [hz] at he
          obtain ⟨i0, hi0, he0⟩ := shuffled_surj rand (size * size) harea 0
            (by
              have := Nat.mul_le_mul h1 h1
              omega)
          refine ⟨i0, List.mem_range.mpr (by omega), by rw [he0, he]⟩
      · rw [if_neg hcond] at hc
        exact absurd hc.symm (by decide)
    · intro hmem
      rw [List.mem_map] at hmem
      obtain ⟨i, hi, he⟩ := hmem
      rw [List.mem_range] at hi
      rw [if_pos ⟨by omega, i, List.mem_range.mpr (by omega), he⟩]
  rw [List.countP_congr e2]
  have hnd2 : ((List.range (min num_mines (size * size))).map
      (fun i => (shuffledIndices rand (size * size)).getD i 0)).Nodup := by
    apply List.Nodup.map_on ?_ (List.nodup_range _)
    intro a ha2 b hb2 hfe
    rw [List.mem_range] at ha2 hb2
    by_contra hne
    exact hinj a (by omega) b (by omega) hne hfe
  have hsub2 : ∀ a ∈ (List.range (min num_mines (size * size))).map
      (fun i => (shuffledIndices rand (size * size)).getD i 0), a < size * size := by
    intro a hha
    obtain ⟨i, hi, rfl⟩ := List.mem_map.mp hha
    rw [List.mem_range] at hi
    exact hbound i (by omega)
  rw [countP_mem_eq_length hnd2 hsub2, List.length_map, List.length_range]

/-- C3: after `board_init`, every in-range non-mine cell stores exactly the
    number of mine cells among its at-most-8 neighbors in the clipped 3x3
    block (no wraparound), a value between 0 and 8. -/
theorem C3_init_counts (rand : Nat → Nat) (size num_mines : Nat) (x y : Nat)
    (h1 : 1 ≤ size) (h2 : size ≤ MAX_BOARD_SIZE) (hx : x < size) (hy : y < size)
    (hnm : (board_init rand size num_mines).cells.getD (y * size + x) 0 ≠ CELL_MINE) :
    (board_init rand size num_mines).cells.getD (y * size + x) 0
        = specNeighborMineCount (board_init rand size num_mines).cells size x y
    ∧ (board_init rand size num_mines).cells.getD (y * size + x) 0 ≤ 8 := by
  have hMA : MAX_BOARD_AREA = 676 := rfl
  have h226 : size ≤ 26 := by
    have hMS : MAX_BOARD_SIZE = 26 := rfl
    omega
  have harea : size * size ≤ MAX_BOARD_AREA := by
    have := Nat.mul_le_mul h226 h226
    omega
  have hcells : (board_init rand size num_mines).cells
      = computeNumbers size (placeMines (List.replicate MAX_BOARD_AREA 0)
          (shuffledIndices rand (size * size)) num_mines) := rfl
  rw [hcells] at hnm ⊢
  have hn0lt : y * size + x < (placeMines (List.replicate MAX_BOARD_AREA 0)
      (shuffledIndices rand (size * size)) num_mines).length := by
    rw [placeMines_len, List.length_replicate]
    have := idx_lt hx hy
    omega
  have hnm1 : ¬ (placeMines (List.replicate MAX_BOARD_AREA 0)
      (shuffledIndices rand (size * size)) num_mines).getD (y * size + x) 0
      = CELL_MINE :=
    fun hc => hnm ((computeNumbers_mine size _ _).mpr hc)
  have hcn := computeNumbers_getD size (placeMines (List.replicate MAX_BOARD_AREA 0)
      (shuffledIndices rand (size * size)) num_mines) hx hy hn0lt
  rw [hcn, if_neg hnm1]
  constructor
  · rw [countNeighborMines_eq_spec _ hx hy]
    exact specNeighborMineCount_congr size x y
      (fun k => (computeNumbers_mine size _ k).symm)
  · rw [countNeighborMines_eq_spec _ hx hy]
    exact specNeighborMineCount_le _ hx hy

/-- Witness for C2 at size 2, three mines, the all-zero rand stream. -/
theorem C2_init_mines_witness :
    1 ≤ 2
    ∧ (countMineCells (board_init (fun _ => 0) 2 3) = min 3 (2 * 2)
      ∧ (board_init (fun _ => 0) 2 3).overlay
          = List.replicate MAX_BOARD_AREA OverlayCell.Hidden) :=
  ⟨by decide, C2_init_mines (fun _ => 0) 2 3 (by decide) (by decide)⟩

/-- Witness for C3 at size 3, one mine, the all-zero rand stream, cell
    `(0, 0)` (which is not a mine there). -/
theorem C3_init_counts_witness :
    (board_init (fun _ => 0) 3 1).cells.getD 0 0
        = specNeighborMineCount (board_init (fun _ => 0) 3 1).cells 3 0 0
    ∧ (board_init (fun _ => 0) 3 1).cells.getD 0 0 ≤ 8 :=
  C3_init_counts (fun _ => 0) 3 1 0 0 (by decide) (by decide) (by decide) (by decide)
    (by decide)

end Minesweeper
